import Mathlib

/-!
# The index-ordered linked list of `llist.c`

A shallow embedding of `src/llist.c`.  The C functions work on a singly linked
chain of heap nodes reached from `llistp->first`, guarded by a reader-writer
lock.  The embedding keeps the pointers: the heap is a list of cells addressed
by position, a freed cell stays in place as `none`, and a pointer is an
`Option Nat` with `none` for `NULL`.  Every function is a total Lean function
returning either its C result together with the new state, or the way in which
the call fails to return (`stuck`).

Each `for` loop is a recursive function with a step bound, and every function
runs its loop with the bound `heap.length + 1`.  The loops write nothing before
they leave, so a loop that has visited `heap.length + 1` live cells has visited
one of them twice and never ends in C; the functions report this as
`stuck.diverged`.  On a chain that ends in `NULL` the bound is never reached
(`is_chain_length_le`).

The calls to `logline` write to an external log and touch neither the heap nor
the list; they are left out.
-/

namespace Llist

/-- Ways in which a call does not return normally. -/
inductive stuck where
  /-- The call waits for the reader-writer lock and nothing will release it. -/
  | blocked
  /-- A `NULL`, freed or never allocated node is dereferenced. -/
  | fault
  /-- The scan runs around a cyclic chain for ever. -/
  | diverged
  /-- The process is ended by `exit(1)`. -/
  | exited
  deriving DecidableEq, Repr

/-- A list node `llist_node_t`: the key, the payload pointer (`none` is `NULL`)
and the link to the next node (`none` is `NULL`). -/
structure llist_node_t (α : Type) where
  index : Int
  datap : Option α
  nextp : Option Nat
  deriving DecidableEq, Repr

/-- The four lock calls, as recorded in the history of a lock. -/
inductive rdwr_call where
  | rlock
  | runlock
  | wlock
  | wunlock
  deriving DecidableEq, Repr

/-- Modelled from the spec: the reader-writer lock type `pthread_rdwr_t`, whose
declaration and functions are not in `llist.c`.  The spec describes a lock that
many shared holders or one exclusive holder may hold, never both, and whose
acquire calls wait indefinitely.  `readers_reading` counts the shared holders,
`writer_writing` tells whether the lock is held exclusively, and `history` is
the sequence of lock calls that have returned so far. -/
structure pthread_rdwr_t where
  readers_reading : Nat
  writer_writing : Bool
  history : List rdwr_call
  deriving DecidableEq, Repr

/-- The program state seen by the functions of `llist.c`: the heap of node
cells (`none` marks a freed cell), the two fields `first` and `rwlock` of the
list object `*llistp`, and the payload pointers that were handed to `free`. -/
structure world (α : Type) where
  heap : List (Option (llist_node_t α))
  first : Option Nat
  rwlock : pthread_rdwr_t
  released : List α
  deriving DecidableEq, Repr

deriving instance DecidableEq for Except

variable {α : Type}

/-- Modelled from the spec: `pthread_rdwr_init_np` builds an idle lock and
reports success with 0. -/
def pthread_rdwr_init_np : Int × pthread_rdwr_t :=
  (0, { readers_reading := 0, writer_writing := false, history := [] })

/-- Modelled from the spec: `pthread_rdwr_rlock_np` takes the lock in shared
mode; while a writer holds it the caller waits. -/
def pthread_rdwr_rlock_np (w : world α) : Except stuck (world α) :=
  if w.rwlock.writer_writing then .error .blocked
  else .ok { w with rwlock :=
    { w.rwlock with readers_reading := w.rwlock.readers_reading + 1,
                    history := w.rwlock.history ++ [.rlock] } }

/-- Modelled from the spec: `pthread_rdwr_runlock_np` gives one shared hold
back. -/
def pthread_rdwr_runlock_np (w : world α) : world α :=
  { w with rwlock :=
    { w.rwlock with readers_reading := w.rwlock.readers_reading - 1,
                    history := w.rwlock.history ++ [.runlock] } }

/-- Modelled from the spec: `pthread_rdwr_wlock_np` takes the lock exclusively;
while a writer or any reader holds it the caller waits. -/
def pthread_rdwr_wlock_np (w : world α) : Except stuck (world α) :=
  if w.rwlock.writer_writing || w.rwlock.readers_reading != 0 then .error .blocked
  else .ok { w with rwlock :=
    { w.rwlock with writer_writing := true,
                    history := w.rwlock.history ++ [.wlock] } }

/-- Modelled from the spec: `pthread_rdwr_wunlock_np` gives the exclusive hold
back. -/
def pthread_rdwr_wunlock_np (w : world α) : world α :=
  { w with rwlock :=
    { w.rwlock with writer_writing := false,
                    history := w.rwlock.history ++ [.wunlock] } }

/-- Reading through a node pointer: the cell must hold a live node. -/
def deref (h : List (Option (llist_node_t α))) (a : Nat) : Except stuck (llist_node_t α) :=
  match h[a]? with
  | some (some n) => .ok n
  | _ => .error .fault

/-- Writing the fields of the node at address `a`. -/
def store (h : List (Option (llist_node_t α))) (a : Nat) (n : llist_node_t α) :
    List (Option (llist_node_t α)) :=
  h.set a (some n)

/-- The call `free(cur)` on a node: the cell is dead from now on. -/
def free_node (h : List (Option (llist_node_t α))) (a : Nat) :
    List (Option (llist_node_t α)) :=
  h.set a none

/-- The call `free(cur->datap)` on a payload pointer; `free(NULL)` does
nothing. -/
def free_data (d : Option α) (w : world α) : world α :=
  match d with
  | none => w
  | some x => { w with released := x :: w.released }

/-- The function `llist_init` (llist.c:19-28). -/
def llist_init (w : world α) : Except stuck (Int × world α) :=
  let w1 := { w with first := none }
  let (rtn, lk) := pthread_rdwr_init_np
  if rtn ≠ 0 then .error .exited
  else .ok (0, { w1 with rwlock := lk })

/-- The `for` loop of `llist_insert_data` (llist.c:46-59).  The result is the
value of `cur`, `prev` and `found` when the loop is left, and the state.  The
first argument bounds the number of iterations. -/
def insert_loop (index : Int) (datap : Option α) :
    Nat → Option Nat → Option Nat → world α →
      Except stuck (Option Nat × Option Nat × Bool × world α)
  | _, none, prev, w => .ok (none, prev, false, w)
  | 0, some _, _, _ => .error .diverged
  | fuel + 1, some c, prev, w =>
    match deref w.heap c with
    | .error e => .error e
    | .ok n =>
      if n.index = index then
        let w1 := free_data n.datap w
        .ok (some c, prev, true,
          { w1 with heap := store w1.heap c { n with datap := datap } })
      else if n.index > index then .ok (some c, prev, false, w)
      else insert_loop index datap fuel n.nextp (some c) w

/-- The block run by `llist_insert_data` when nothing was found
(llist.c:63-74): a new node is allocated and linked in before `cur`.  As in the
code, `malloc` is taken to succeed; it returns an address that was never in use
before. -/
def insert_new (index : Int) (datap : Option α) (cur prev : Option Nat) (w : world α) :
    Except stuck (world α) :=
  let new := w.heap.length
  let h := w.heap ++ [some { index := index, datap := datap, nextp := cur }]
  if cur = w.first then .ok { w with heap := h, first := some new }
  else
    match prev with
    | none => .error .fault
    | some q =>
      match deref h q with
      | .error e => .error e
      | .ok pn => .ok { w with heap := store h q { pn with nextp := some new } }

/-- The function `llist_insert_data` (llist.c:37-79). -/
def llist_insert_data (index : Int) (datap : Option α) (w : world α) :
    Except stuck (Int × world α) :=
  match pthread_rdwr_wlock_np w with
  | .error e => .error e
  | .ok w1 =>
    match insert_loop index datap (w1.heap.length + 1) w1.first w1.first w1 with
    | .error e => .error e
    | .ok (cur, prev, found, w2) =>
      if found then .ok (0, pthread_rdwr_wunlock_np w2)
      else
        match insert_new index datap cur prev w2 with
        | .error e => .error e
        | .ok w3 => .ok (0, pthread_rdwr_wunlock_np w3)

/-- The `for` loop of `llist_remove_data` (llist.c:96-109).  The result is the
final value of `*datapp` and the state. -/
def remove_loop (index : Int) :
    Nat → Option Nat → Option Nat → Option α → world α → Except stuck (Option α × world α)
  | _, none, _, out, w => .ok (out, w)
  | 0, some _, _, _, _ => .error .diverged
  | fuel + 1, some c, prev, out, w =>
    match deref w.heap c with
    | .error e => .error e
    | .ok n =>
      if n.index = index then
        match prev with
        | none => .error .fault
        | some q =>
          match deref w.heap q with
          | .error e => .error e
          | .ok pn =>
            let h1 := store w.heap q { pn with nextp := n.nextp }
            .ok (n.datap, { w with heap := free_node h1 c })
      else if n.index > index then .ok (out, w)
      else remove_loop index fuel n.nextp (some c) out w

/-- The function `llist_remove_data` (llist.c:87-114).  The result is the
return value and the final value of `*datapp`. -/
def llist_remove_data (index : Int) (w : world α) :
    Except stuck ((Int × Option α) × world α) :=
  match pthread_rdwr_wlock_np w with
  | .error e => .error e
  | .ok w1 =>
    match remove_loop index (w1.heap.length + 1) w1.first w1.first none w1 with
    | .error e => .error e
    | .ok (out, w2) => .ok ((0, out), pthread_rdwr_wunlock_np w2)

/-- The `for` loop of `llist_find_data` (llist.c:131-142).  The result is the
final value of `*datapp`. -/
def find_loop (index : Int) (h : List (Option (llist_node_t α))) :
    Nat → Option Nat → Option Nat → Option α → Except stuck (Option α)
  | _, none, _, out => .ok out
  | 0, some _, _, _ => .error .diverged
  | fuel + 1, some c, _, out =>
    match deref h c with
    | .error e => .error e
    | .ok n =>
      if n.index = index then .ok n.datap
      else if n.index > index then .ok out
      else find_loop index h fuel n.nextp (some c) out

/-- The function `llist_find_data` (llist.c:121-147).  The result is the
return value and the final value of `*datapp`. -/
def llist_find_data (index : Int) (w : world α) :
    Except stuck ((Int × Option α) × world α) :=
  match pthread_rdwr_rlock_np w with
  | .error e => .error e
  | .ok w1 =>
    match find_loop index w1.heap (w1.heap.length + 1) w1.first w1.first none with
    | .error e => .error e
    | .ok out => .ok ((0, out), pthread_rdwr_runlock_np w1)

/-- The `for` loop of `llist_change_data` (llist.c:161-175).  The result is the
final value of `status` and the state. -/
def change_loop (index : Int) (datap : Option α) :
    Nat → Option Nat → Option Nat → Int → world α → Except stuck (Int × world α)
  | _, none, _, status, w => .ok (status, w)
  | 0, some _, _, _, _ => .error .diverged
  | fuel + 1, some c, prev, status, w =>
    match deref w.heap c with
    | .error e => .error e
    | .ok n =>
      if n.index = index then
        let h0 := store w.heap c { n with datap := datap }
        match prev with
        | none => .error .fault
        | some q =>
          match deref h0 q with
          | .error e => .error e
          | .ok pn =>
            let h1 := store h0 q { pn with nextp := n.nextp }
            .ok (0, { w with heap := free_node h1 c })
      else if n.index > index then .ok (status, w)
      else change_loop index datap fuel n.nextp (some c) status w

/-- The function `llist_change_data` (llist.c:154-180). -/
def llist_change_data (index : Int) (datap : Option α) (w : world α) :
    Except stuck (Int × world α) :=
  match pthread_rdwr_wlock_np w with
  | .error e => .error e
  | .ok w1 =>
    match change_loop index datap (w1.heap.length + 1) w1.first w1.first (-1) w1 with
    | .error e => .error e
    | .ok (status, w2) => .ok (status, pthread_rdwr_wunlock_np w2)

/-- The largest value of the C type `int`. -/
def INT_MAX : Int := 2147483647

/-- The `for` loop of `llist_get_count` (llist.c:214-217).  Incrementing an
`int` that holds `INT_MAX` is undefined. -/
def count_loop (h : List (Option (llist_node_t α))) :
    Nat → Option Nat → Int → Except stuck Int
  | _, none, count => .ok count
  | 0, some _, _ => .error .diverged
  | fuel + 1, some c, count =>
    match deref h c with
    | .error e => .error e
    | .ok n =>
      if count = INT_MAX then .error .fault
      else count_loop h fuel n.nextp (count + 1)

/-- The function `llist_get_count` (llist.c:207-222). -/
def llist_get_count (w : world α) : Except stuck (Int × world α) :=
  match pthread_rdwr_rlock_np w with
  | .error e => .error e
  | .ok w1 =>
    match count_loop w1.heap (w1.heap.length + 1) w1.first 0 with
    | .error e => .error e
    | .ok count => .ok (count, pthread_rdwr_runlock_np w1)

/-- The `for` loop of `llist_get_next_idx` (llist.c:236-243).  The result is
`some j` when the loop is left by `return j`, and `none` when it runs to the
end of the chain. -/
def next_idx_loop (index : Int) (h : List (Option (llist_node_t α))) :
    Nat → Option Nat → Option Nat → Except stuck (Option Int)
  | _, none, _ => .ok none
  | 0, some _, _ => .error .diverged
  | fuel + 1, some c, _ =>
    match deref h c with
    | .error e => .error e
    | .ok n =>
      if n.index = index then
        match n.nextp with
        | some nx =>
          match deref h nx with
          | .error e => .error e
          | .ok nn => .ok (some nn.index)
        | none => next_idx_loop index h fuel n.nextp (some c)
      else next_idx_loop index h fuel n.nextp (some c)

/-- The function `llist_get_next_idx` (llist.c:229-248).  The `return` inside
the loop leaves the function at once, with the shared lock still held. -/
def llist_get_next_idx (index : Int) (w : world α) : Except stuck (Int × world α) :=
  match pthread_rdwr_rlock_np w with
  | .error e => .error e
  | .ok w1 =>
    match next_idx_loop index w1.heap (w1.heap.length + 1) w1.first w1.first with
    | .error e => .error e
    | .ok (some j) => .ok (j, w1)
    | .ok none => .ok (-1, pthread_rdwr_runlock_np w1)

/-- The nodes met when walking from pointer `p` to `NULL`, each as its address,
index and payload; `none` when the walk meets a cell that holds no live node or
does not end within the given number of steps. -/
def chain (h : List (Option (llist_node_t α))) :
    Nat → Option Nat → Option (List (Nat × Int × Option α))
  | _, none => some []
  | 0, some _ => none
  | fuel + 1, some a =>
    match h[a]? with
    | some (some n) =>
      match chain h fuel n.nextp with
      | some r => some ((a, n.index, n.datap) :: r)
      | none => none
    | _ => none

/-- The nodes reachable from the head, with their addresses. -/
def llist_nodes (w : world α) : Option (List (Nat × Int × Option α)) :=
  chain w.heap w.heap.length w.first

/-- The contents of the list: index and payload of every node reachable from
the head, in order.  The value is `none` when the head does not lead through
live nodes to `NULL`. -/
def contents (w : world α) : Option (List (Int × Option α)) :=
  (llist_nodes w).map (List.map Prod.snd)

/-- Strictly ascending indices. -/
def ascending (l : List (Int × Option α)) : Prop :=
  (l.map Prod.fst).Pairwise (· < ·)

instance (l : List (Int × Option α)) : Decidable (ascending l) := by
  unfold ascending; infer_instance

/-- The lock is held by nobody. -/
def lock_idle (w : world α) : Prop :=
  w.rwlock.writer_writing = false ∧ w.rwlock.readers_reading = 0

instance (w : world α) : Decidable (lock_idle w) := by
  unfold lock_idle; infer_instance

/-- A state with an empty heap, before `llist_init`. -/
def blank : world α :=
  { heap := [], first := none,
    rwlock := { readers_reading := 0, writer_writing := false, history := [] },
    released := [] }

/-- The chain of live nodes from pointer `p` to `NULL` spells out `l`: the
relation computed by `chain`, without the step bound. -/
def is_chain (h : List (Option (llist_node_t α))) :
    Option Nat → List (Nat × Int × Option α) → Prop
  | p, [] => p = none
  | p, (a, i, d) :: r =>
    p = some a ∧ ∃ nx, h[a]? = some (some { index := i, datap := d, nextp := nx }) ∧
      is_chain h nx r

/-- What the scans of `llist_find_data` and `llist_remove_data` leave in
`*datapp` on a chain with the given contents: the payload of the first node
with the index looked for, unless a node with a larger index comes first. -/
def scan_out (index : Int) : List (Int × Option α) → Option α
  | [] => none
  | (j, d) :: r =>
    if j = index then d else if j > index then none else scan_out index r

/-- The contents that `llist_insert_data` leaves, as a function of the contents
before: the scan stops at the first node whose index is not below `index`. -/
def upsert (index : Int) (datap : Option α) : List (Int × Option α) → List (Int × Option α)
  | [] => [(index, datap)]
  | (j, d) :: r =>
    if j = index then (index, datap) :: r
    else if j > index then (index, datap) :: (j, d) :: r
    else (j, d) :: upsert index datap r

/-- What the loop of `llist_get_next_idx` returns on a chain with the given
contents: the index after the first node that has the index looked for and a
successor; `none` when the loop runs to the end. -/
def next_out (index : Int) : List (Int × Option α) → Option Int
  | [] => none
  | (j, _) :: r =>
    if j = index then
      match r with
      | (k, _) :: _ => some k
      | [] => none
    else next_out index r

/-- The list 1:y, 2:z, 3:x with an idle lock, laid out as three inserts in the
order (3,x), (1,y), (2,z) leave it. -/
def sample : world String :=
  { heap := [some { index := 3, datap := some "x", nextp := none },
             some { index := 1, datap := some "y", nextp := some 2 },
             some { index := 2, datap := some "z", nextp := some 0 }],
    first := some 1,
    rwlock := { readers_reading := 0, writer_writing := false, history := [] },
    released := [] }

/-- The contents of `sample`. -/
def sample_contents : List (Int × Option String) :=
  [(1, some "y"), (2, some "z"), (3, some "x")]

/-- The contents that the unlinking in `llist_remove_data` and
`llist_change_data` leaves behind a first node that is not the match: the scan
drops the first node with the index looked for, unless a node with a larger
index comes first. -/
def scan_erase (index : Int) : List (Int × Option α) → List (Int × Option α)
  | [] => []
  | (j, d) :: r =>
    if j = index then r
    else if j > index then (j, d) :: r
    else (j, d) :: scan_erase index r

/-- Whether the scan shared by the functions meets a node with the index
looked for before it meets a larger index or the end. -/
def scan_hit (index : Int) : List (Int × Option α) → Bool
  | [] => false
  | (j, _) :: r =>
    if j = index then true else if j > index then false else scan_hit index r

/-- The reference sorted upsert, written after the words of the specification
and not after the code: when a node has the index, only the payload of that
node changes; otherwise the nodes with a smaller index, the new node, and the
nodes with a larger index, each group in its old order. -/
def reference_upsert (index : Int) (datap : Option α) (l : List (Int × Option α)) :
    List (Int × Option α) :=
  if l.any (fun x => decide (x.1 = index)) then
    l.map (fun x => if x.1 = index then (index, datap) else x)
  else
    l.filter (fun x => decide (x.1 < index)) ++ [(index, datap)] ++
      l.filter (fun x => decide (index < x.1))

/-- A list of `n` nodes with the indices 0, 1, ..., n-1 and `NULL` payloads,
laid out in address order, with an idle lock. -/
def ramp (n : Nat) : world α :=
  { heap := (List.range n).map (fun (k : Nat) =>
      some { index := Int.ofNat k, datap := none,
             nextp := if k + 1 < n then some (k + 1) else none }),
    first := if n = 0 then none else some 0,
    rwlock := { readers_reading := 0, writer_writing := false, history := [] },
    released := [] }

/-- The list -2:a, -1:b with an idle lock. -/
def below_zero : world String :=
  { heap := [some { index := -2, datap := some "a", nextp := some 1 },
             some { index := -1, datap := some "b", nextp := none }],
    first := some 0,
    rwlock := { readers_reading := 0, writer_writing := false, history := [] },
    released := [] }

/-! ## Chains of nodes in the heap -/

/-- A walk that succeeds within `f` steps spells out a chain of at most `f`
nodes. -/
theorem chain_sound (h : List (Option (llist_node_t α))) :
    ∀ (f : Nat) (p : Option Nat) (l : List (Nat × Int × Option α)),
      chain h f p = some l → is_chain h p l ∧ l.length ≤ f := by
  intro f
  induction f with
  | zero =>
    intro p l hc
    cases p with
    | none => simp [chain] at hc; subst hc; simp [is_chain]
    | some a => simp [chain] at hc
  | succ f ih =>
    intro p l hc
    cases p with
    | none => simp [chain] at hc; subst hc; simp [is_chain]
    | some a =>
      simp only [chain] at hc
      split at hc
      · rename_i n hn
        split at hc
        · rename_i r hr
          cases hc
          obtain ⟨h1, h2⟩ := ih _ _ hr
          refine ⟨⟨rfl, n.nextp, ?_, h1⟩, by simp; omega⟩
          simpa using hn
        · cases hc
      · cases hc

/-- A chain of at most `f` nodes is found by the walk with bound `f`. -/
theorem chain_complete (h : List (Option (llist_node_t α))) :
    ∀ (l : List (Nat × Int × Option α)) (f : Nat) (p : Option Nat),
      is_chain h p l → l.length ≤ f → chain h f p = some l := by
  intro l
  induction l with
  | nil =>
    intro f p hc _
    simp [is_chain] at hc
    subst hc
    cases f <;> simp [chain]
  | cons x r ih =>
    intro f p hc hf
    obtain ⟨a, i, d⟩ := x
    obtain ⟨hp, nx, hn, hr⟩ := hc
    subst hp
    cases f with
    | zero => simp at hf
    | succ f =>
      have := ih f nx hr (by simpa using hf)
      simp [chain, hn, this]

/-- The chain from a pointer is unique. -/
theorem is_chain_det (h : List (Option (llist_node_t α))) :
    ∀ (l1 l2 : List (Nat × Int × Option α)) (p : Option Nat),
      is_chain h p l1 → is_chain h p l2 → l1 = l2 := by
  intro l1
  induction l1 with
  | nil =>
    intro l2 p h1 h2
    simp [is_chain] at h1
    subst h1
    cases l2 with
    | nil => rfl
    | cons y r2 => obtain ⟨a, i, d⟩ := y; simp [is_chain] at h2
  | cons x r1 ih =>
    intro l2 p h1 h2
    obtain ⟨a, i, d⟩ := x
    obtain ⟨hp, nx, hn, hr⟩ := h1
    subst hp
    cases l2 with
    | nil => simp [is_chain] at h2
    | cons y r2 =>
      obtain ⟨b, j, e⟩ := y
      obtain ⟨hp2, nx2, hn2, hr2⟩ := h2
      cases hp2
      rw [hn] at hn2
      cases hn2
      rw [ih r2 nx hr hr2]

/-- Every node of a chain starts a chain that is no longer than the whole. -/
theorem is_chain_suffix (h : List (Option (llist_node_t α))) :
    ∀ (l : List (Nat × Int × Option α)) (p : Option Nat) (a : Nat),
      is_chain h p l → a ∈ l.map Prod.fst →
        ∃ l2, is_chain h (some a) l2 ∧ l2.length ≤ l.length := by
  intro l
  induction l with
  | nil => intro p a _ ha; simp at ha
  | cons x r ih =>
    intro p a hc ha
    obtain ⟨b, i, d⟩ := x
    obtain ⟨hp, nx, hn, hr⟩ := hc
    simp only [List.map_cons, List.mem_cons] at ha
    rcases ha with ha | ha
    · subst ha
      exact ⟨(a, i, d) :: r, ⟨rfl, nx, hn, hr⟩, le_refl _⟩
    · obtain ⟨l2, h2, hlen⟩ := ih nx a hr ha
      exact ⟨l2, h2, by simp; omega⟩

/-- A chain that ends in `NULL` visits every address at most once. -/
theorem is_chain_nodup (h : List (Option (llist_node_t α))) :
    ∀ (l : List (Nat × Int × Option α)) (p : Option Nat),
      is_chain h p l → (l.map Prod.fst).Nodup := by
  intro l
  induction l with
  | nil => intro p _; simp
  | cons x r ih =>
    intro p hc
    obtain ⟨a, i, d⟩ := x
    have hc0 := hc
    obtain ⟨hp, nx, hn, hr⟩ := hc
    simp only [List.map_cons, List.nodup_cons]
    refine ⟨?_, ih nx hr⟩
    intro ha
    obtain ⟨l2, h2, hlen⟩ := is_chain_suffix h r nx a hr ha
    subst hp
    have := is_chain_det h _ _ _ h2 hc0
    subst this
    simp at hlen

/-- Every address on a chain lies inside the heap. -/
theorem is_chain_lt (h : List (Option (llist_node_t α))) :
    ∀ (l : List (Nat × Int × Option α)) (p : Option Nat),
      is_chain h p l → ∀ a ∈ l.map Prod.fst, a < h.length := by
  intro l
  induction l with
  | nil => intro p _ a ha; simp at ha
  | cons x r ih =>
    intro p hc a ha
    obtain ⟨b, i, d⟩ := x
    obtain ⟨hp, nx, hn, hr⟩ := hc
    simp only [List.map_cons, List.mem_cons] at ha
    rcases ha with ha | ha
    · subst ha
      by_contra hlt
      rw [List.getElem?_eq_none (by omega)] at hn
      cases hn
    · exact ih nx hr a ha

/-- A chain has at most as many nodes as the heap has cells, so the step bounds
used by the functions are never reached on a well-formed list. -/
theorem is_chain_length_le (h : List (Option (llist_node_t α)))
    (l : List (Nat × Int × Option α)) (p : Option Nat) (hc : is_chain h p l) :
    l.length ≤ h.length := by
  have hnd := is_chain_nodup h l p hc
  have hlt := is_chain_lt h l p hc
  have hsub : l.map Prod.fst ⊆ List.range h.length := by
    intro a ha
    exact List.mem_range.mpr (hlt a ha)
  have := (List.subperm_of_subset hnd hsub).length_le
  simpa using this

/-- The walk from the head with the heap size as bound finds exactly the
chains. -/
theorem llist_nodes_iff (w : world α) (l : List (Nat × Int × Option α)) :
    llist_nodes w = some l ↔ is_chain w.heap w.first l := by
  constructor
  · intro hl
    exact (chain_sound w.heap _ _ _ hl).1
  · intro hc
    exact chain_complete w.heap l _ _ hc (is_chain_length_le _ _ _ hc)

/-- A chain survives every change of the heap outside its own cells. -/
theorem is_chain_congr (h h2 : List (Option (llist_node_t α))) :
    ∀ (l : List (Nat × Int × Option α)) (p : Option Nat),
      (∀ a ∈ l.map Prod.fst, h2[a]? = h[a]?) → is_chain h p l → is_chain h2 p l := by
  intro l
  induction l with
  | nil => intro p _ hc; exact hc
  | cons x r ih =>
    intro p hag hc
    obtain ⟨a, i, d⟩ := x
    obtain ⟨hp, nx, hn, hr⟩ := hc
    refine ⟨hp, nx, ?_, ih nx (fun b hb => hag b (by simp [hb])) hr⟩
    rw [hag a (by simp)]
    exact hn

/-! ## Reading and writing heap cells -/

/-- Reading through a pointer succeeds exactly on a live cell. -/
theorem deref_eq_ok (h : List (Option (llist_node_t α))) (a : Nat) (n : llist_node_t α) :
    deref h a = .ok n ↔ h[a]? = some (some n) := by
  unfold deref
  split
  · rename_i m hm
    rw [hm]
    constructor
    · intro e; cases e; rfl
    · intro e; cases e; rfl
  · rename_i hne
    constructor
    · intro e; cases e
    · intro e; exact absurd e (hne n)

/-- An address that holds a cell lies inside the heap. -/
theorem get_lt (h : List (Option (llist_node_t α))) (a : Nat) (x : Option (llist_node_t α))
    (hx : h[a]? = some x) : a < h.length := by
  by_contra hlt
  rw [List.getElem?_eq_none (by omega)] at hx
  cases hx

/-- A written cell holds what was written. -/
theorem store_get_self (h : List (Option (llist_node_t α))) (a : Nat) (n : llist_node_t α)
    (ha : a < h.length) : (store h a n)[a]? = some (some n) := by
  simp [store, ha]

/-- Writing one cell leaves the others alone. -/
theorem store_get_ne (h : List (Option (llist_node_t α))) (a b : Nat) (n : llist_node_t α)
    (hab : a ≠ b) : (store h a n)[b]? = h[b]? := by
  simp [store, hab]

/-- A freed cell is dead. -/
theorem free_get_self (h : List (Option (llist_node_t α))) (a : Nat)
    (ha : a < h.length) : (free_node h a)[a]? = some none := by
  simp [free_node, ha]

/-- Freeing one cell leaves the others alone. -/
theorem free_get_ne (h : List (Option (llist_node_t α))) (a b : Nat)
    (hab : a ≠ b) : (free_node h a)[b]? = h[b]? := by
  simp [free_node, hab]

/-- Allocation leaves the old cells alone. -/
theorem push_get_old (h : List (Option (llist_node_t α))) (x : Option (llist_node_t α))
    (b : Nat) (hb : b < h.length) : (h ++ [x])[b]? = h[b]? := by
  simp [List.getElem?_append_left hb]

/-- The allocated cell sits at the old heap size. -/
theorem push_get_new (h : List (Option (llist_node_t α))) (x : Option (llist_node_t α)) :
    (h ++ [x])[h.length]? = some x := by
  simp

/-- Releasing a payload does not touch the heap of nodes. -/
theorem free_data_heap (d : Option α) (w : world α) : (free_data d w).heap = w.heap := by
  cases d <;> rfl

/-- Releasing a payload does not touch the head. -/
theorem free_data_first (d : Option α) (w : world α) : (free_data d w).first = w.first := by
  cases d <;> rfl

/-- Releasing a payload does not touch the lock. -/
theorem free_data_rwlock (d : Option α) (w : world α) : (free_data d w).rwlock = w.rwlock := by
  cases d <;> rfl


/-! ## The scan of `llist_insert_data` -/

/-- Writing back the link a node already has changes nothing. -/
theorem node_eta (n : llist_node_t α) (x : Option Nat) (hx : n.nextp = x) :
    ({ n with nextp := x } : llist_node_t α) = n := by
  cases n; simp at hx; subst hx; rfl

/-- The scan of `llist_insert_data` from a node `q` that is not the match and
has a smaller index: loop and linking together turn the chain behind `q` into
its upsert, touch only `q`, the chain and the new cell, and keep head and lock.
-/
theorem insert_tail (i : Int) (p : Option α) :
    ∀ (l : List (Nat × Int × Option α)) (f : Nat) (cur : Option Nat) (q : Nat)
      (nq : llist_node_t α) (w : world α),
      is_chain w.heap cur l → l.length ≤ f →
      w.heap[q]? = some (some nq) → nq.nextp = cur →
      q ∉ l.map Prod.fst →
      (∃ f0, w.first = some f0 ∧ f0 ∉ l.map Prod.fst) →
      ∃ cur2 prev2 found w2 w3,
        insert_loop i p f cur (some q) w = .ok (cur2, prev2, found, w2) ∧
        (if found then .ok w2 else insert_new i p cur2 prev2 w2) = .ok w3 ∧
        w3.first = w.first ∧ w3.rwlock = w.rwlock ∧
        ∃ nx l2, w3.heap[q]? = some (some { nq with nextp := nx }) ∧
          is_chain w3.heap nx l2 ∧
          l2.map Prod.snd = upsert i p (l.map Prod.snd) ∧
          (∀ a, a ≠ q → a ∉ l.map Prod.fst → a < w.heap.length →
            w3.heap[a]? = w.heap[a]?) := by
  intro l
  induction l with
  | nil =>
    intro f cur q nq w hc _ hq hnx _ hfirst
    simp only [is_chain] at hc
    subst hc
    obtain ⟨f0, hf0, _⟩ := hfirst
    have hql := get_lt _ _ _ hq
    have hd : deref (w.heap ++ [some { index := i, datap := p, nextp := none }]) q = .ok nq := by
      rw [deref_eq_ok, push_get_old _ _ _ hql]; exact hq
    refine ⟨none, some q, false, w,
      { w with
          heap := store (w.heap ++ [some { index := i, datap := p, nextp := none }]) q
            { nq with nextp := some w.heap.length } },
      by cases f <;> rfl, ?_, rfl, rfl, ?_⟩
    · simp [insert_new, hf0, hd]
    · refine ⟨some w.heap.length, [(w.heap.length, i, p)], ?_, ?_, ?_, ?_⟩
      · exact store_get_self _ _ _ (by simp; omega)
      · refine ⟨rfl, none, ?_, rfl⟩
        show (store _ _ _)[_]? = _
        rw [store_get_ne _ _ _ _ (by omega), push_get_new]
      · simp [upsert]
      · intro a ha _ hal
        show (store _ _ _)[_]? = _
        rw [store_get_ne _ _ _ _ (Ne.symm ha), push_get_old _ _ _ hal]
  | cons x r ih =>
    intro f cur q nq w hc hf hq hnx hqn hfirst
    obtain ⟨c, j, d⟩ := x
    have hnd := is_chain_nodup _ _ _ hc
    have hlt := is_chain_lt _ _ _ hc
    obtain ⟨hp, nxc, hn, hr⟩ := hc
    subst hp
    obtain ⟨f0, hf0, hf0n⟩ := hfirst
    simp only [List.map_cons, List.nodup_cons, List.mem_cons, not_or] at hnd hqn hf0n
    have hcl : c < w.heap.length := get_lt _ _ _ hn
    have hql := get_lt _ _ _ hq
    cases f with
    | zero => simp at hf
    | succ f =>
      have hdc : deref w.heap c = .ok { index := j, datap := d, nextp := nxc } := by
        rw [deref_eq_ok]; exact hn
      by_cases hji : j = i
      · -- the node is found: its payload is replaced
        subst hji
        refine ⟨some c, some q, true, _,
          { free_data d w with
              heap := store (free_data d w).heap c { index := j, datap := p, nextp := nxc } },
          by simp only [insert_loop, hdc]; simp, rfl, ?_, ?_, ?_⟩
        · simp [free_data_first]
        · simp [free_data_rwlock]
        · refine ⟨some c, (c, j, p) :: r, ?_, ?_, ?_, ?_⟩
          · show (store _ _ _)[_]? = _
            rw [free_data_heap, store_get_ne _ _ _ _ (Ne.symm hqn.1), hq, node_eta _ _ hnx]
          · refine ⟨rfl, nxc, ?_, ?_⟩
            · show (store _ _ _)[_]? = _
              rw [free_data_heap, store_get_self _ _ _ hcl]
            · refine is_chain_congr w.heap _ r nxc ?_ hr
              intro a ha
              show (store _ _ _)[_]? = _
              rw [free_data_heap, store_get_ne]
              intro hca; subst hca; exact hnd.1 ha
          · simp [upsert]
          · intro a _ ha _
            simp only [List.map_cons, List.mem_cons, not_or] at ha
            show (store _ _ _)[_]? = _
            rw [free_data_heap, store_get_ne _ _ _ _ (Ne.symm ha.1)]
      · by_cases hgt : j > i
        · -- a larger index is met: the new node goes between q and c
          have hd : deref (w.heap ++ [some { index := i, datap := p, nextp := some c }]) q
              = .ok nq := by
            rw [deref_eq_ok, push_get_old _ _ _ hql]; exact hq
          have hcf : ¬ (some c = w.first) := by
            rw [hf0]; intro e; cases e; exact hf0n.1 rfl
          refine ⟨some c, some q, false, w,
            { w with
                heap := store (w.heap ++ [some { index := i, datap := p, nextp := some c }]) q
                  { nq with nextp := some w.heap.length } },
            by simp only [insert_loop, hdc]; simp [hji, hgt], ?_, rfl, rfl, ?_⟩
          · simp [insert_new, hcf, hd]
          · refine ⟨some w.heap.length, (w.heap.length, i, p) :: (c, j, d) :: r, ?_, ?_, ?_, ?_⟩
            · exact store_get_self _ _ _ (by simp; omega)
            · have hag : ∀ a ∈ ((c, j, d) :: r).map Prod.fst,
                  (store (w.heap ++ [some { index := i, datap := p, nextp := some c }]) q
                    { nq with nextp := some w.heap.length })[a]? = w.heap[a]? := by
                intro a ha
                have hal := hlt a ha
                rw [store_get_ne, push_get_old _ _ _ hal]
                intro hqa; subst hqa
                simp only [List.map_cons, List.mem_cons] at ha
                rcases ha with ha | ha
                · exact hqn.1 ha
                · exact hqn.2 ha
              refine ⟨rfl, some c, ?_, ?_⟩
              · show (store _ _ _)[_]? = _
                rw [store_get_ne _ _ _ _ (by omega), push_get_new]
              · exact is_chain_congr w.heap _ _ (some c) hag ⟨rfl, nxc, hn, hr⟩
            · simp [upsert, hji, hgt]
            · intro a ha _ hal
              show (store _ _ _)[_]? = _
              rw [store_get_ne _ _ _ _ (Ne.symm ha), push_get_old _ _ _ hal]
        · -- the scan moves on
          obtain ⟨cur2, prev2, found, w2, w3, hloop, hpost, hfst, hlk, nx, l2, hcq, hch, hmap, hfr⟩ :=
            ih f nxc c { index := j, datap := d, nextp := nxc } w hr (by simpa using hf) hn rfl
              hnd.1 ⟨f0, hf0, hf0n.2⟩
          refine ⟨cur2, prev2, found, w2, w3, ?_, hpost, hfst, hlk, ?_⟩
          · simp only [insert_loop, hdc]
            simp [hji, hgt]
            exact hloop
          · refine ⟨some c, (c, j, d) :: l2, ?_, ⟨rfl, nx, hcq, hch⟩, ?_, ?_⟩
            · rw [hfr q hqn.1 hqn.2 hql, hq, node_eta _ _ hnx]
            · simp [upsert, hji, hgt, hmap]
            · intro a ha han hal
              simp only [List.map_cons, List.mem_cons, not_or] at han
              exact hfr a han.1 han.2 hal

/-- The scan of `llist_insert_data` from the head, followed by the linking of a
new node when nothing was found, turns the contents into their upsert. -/
theorem insert_head (i : Int) (p : Option α) (w : world α)
    (l : List (Nat × Int × Option α)) (hc : is_chain w.heap w.first l) :
    ∃ cur2 prev2 found w2 w3,
      insert_loop i p (w.heap.length + 1) w.first w.first w = .ok (cur2, prev2, found, w2) ∧
      (if found then .ok w2 else insert_new i p cur2 prev2 w2) = .ok w3 ∧
      w3.rwlock = w.rwlock ∧
      ∃ l2, is_chain w3.heap w3.first l2 ∧
        l2.map Prod.snd = upsert i p (l.map Prod.snd) := by
  have hlen := is_chain_length_le _ _ _ hc
  have hnd := is_chain_nodup _ _ _ hc
  have hlt := is_chain_lt _ _ _ hc
  cases l with
  | nil =>
    simp only [is_chain] at hc
    refine ⟨none, none, false, w,
      { w with heap := w.heap ++ [some { index := i, datap := p, nextp := none }],
               first := some w.heap.length },
      by rw [hc]; rfl, by simp [insert_new, hc], rfl, [(w.heap.length, i, p)], ?_, ?_⟩
    · exact ⟨rfl, none, push_get_new _ _, rfl⟩
    · simp [upsert]
  | cons x r =>
    obtain ⟨c, j, d⟩ := x
    obtain ⟨hp, nxc, hn, hr⟩ := hc
    simp only [List.map_cons, List.nodup_cons] at hnd
    have hcl : c < w.heap.length := get_lt _ _ _ hn
    have hdc : deref w.heap c = .ok { index := j, datap := d, nextp := nxc } := by
      rw [deref_eq_ok]; exact hn
    by_cases hji : j = i
    · subst hji
      refine ⟨some c, some c, true, _,
        { free_data d w with
            heap := store (free_data d w).heap c { index := j, datap := p, nextp := nxc } },
        by rw [hp]; simp only [insert_loop, hdc]; simp, rfl, ?_, (c, j, p) :: r, ?_, ?_⟩
      · simp [free_data_rwlock]
      · refine ⟨by simp [free_data_first, hp], nxc, ?_, ?_⟩
        · show (store _ _ _)[_]? = _
          rw [free_data_heap, store_get_self _ _ _ hcl]
        · refine is_chain_congr w.heap _ r nxc ?_ hr
          intro a ha
          show (store _ _ _)[_]? = _
          rw [free_data_heap, store_get_ne]
          intro hca; subst hca; exact hnd.1 ha
      · simp [upsert]
    · by_cases hgt : j > i
      · refine ⟨some c, some c, false, w,
          { w with heap := w.heap ++ [some { index := i, datap := p, nextp := some c }],
                   first := some w.heap.length },
          by rw [hp]; simp only [insert_loop, hdc]; simp [hji, hgt],
          by simp [insert_new, hp], rfl,
          (w.heap.length, i, p) :: (c, j, d) :: r, ?_, ?_⟩
        · refine ⟨rfl, some c, push_get_new _ _, ?_⟩
          refine is_chain_congr w.heap _ _ (some c) ?_ ⟨rfl, nxc, hn, hr⟩
          intro a ha
          exact push_get_old _ _ _ (hlt a ha)
        · simp [upsert, hji, hgt]
      · obtain ⟨cur2, prev2, found, w2, w3, hloop, hpost, hfst, hlk, nx, l2, hcq, hch, hmap, _⟩ :=
          insert_tail i p r w.heap.length nxc c { index := j, datap := d, nextp := nxc } w hr
            (by simp at hlen; omega) hn rfl hnd.1 ⟨c, hp, hnd.1⟩
        refine ⟨cur2, prev2, found, w2, w3, ?_, hpost, hlk, (c, j, d) :: l2, ?_, ?_⟩
        · rw [hp]
          simp only [insert_loop, hdc]
          simp [hji, hgt]
          exact hloop
        · exact ⟨by rw [hfst, hp], nx, hcq, hch⟩
        · simp [upsert, hji, hgt, hmap]

/-- An idle lock is granted exclusively at once. -/
theorem wlock_idle (w : world α) (hidle : lock_idle w) :
    pthread_rdwr_wlock_np w = .ok { w with rwlock :=
      { w.rwlock with writer_writing := true,
                      history := w.rwlock.history ++ [.wlock] } } := by
  obtain ⟨h1, h2⟩ := hidle
  simp [pthread_rdwr_wlock_np, h1, h2]

/-- On a well-formed list with an idle lock `llist_insert_data` returns 0,
gives the lock back and leaves the upsert of the old nodes. -/
theorem insert_nodes (i : Int) (p : Option α) (w : world α)
    (l : List (Nat × Int × Option α)) (hl : llist_nodes w = some l) (hidle : lock_idle w) :
    ∃ w2 l2, llist_insert_data i p w = .ok (0, w2) ∧ lock_idle w2 ∧
      llist_nodes w2 = some l2 ∧ l2.map Prod.snd = upsert i p (l.map Prod.snd) := by
  rw [llist_nodes_iff] at hl
  obtain ⟨cur2, prev2, found, w2, w3, hloop, hpost, hlk, l2, hch, hmap⟩ :=
    insert_head i p { w with rwlock :=
      { w.rwlock with writer_writing := true,
                      history := w.rwlock.history ++ [.wlock] } } l hl
  refine ⟨pthread_rdwr_wunlock_np w3, l2, ?_, ?_, ?_, hmap⟩
  · simp only [llist_insert_data, wlock_idle w hidle, hloop]
    cases found with
    | true => simp at hpost; subst hpost; simp
    | false => simp at hpost; simp [hpost]
  · constructor
    · rfl
    · show w3.rwlock.readers_reading = 0
      rw [hlk]; exact hidle.2
  · rw [llist_nodes_iff]
    exact hch

/-- The contents are the nodes without their addresses. -/
theorem contents_eq_some (w : world α) (l : List (Int × Option α)) :
    contents w = some l ↔ ∃ l0, llist_nodes w = some l0 ∧ l0.map Prod.snd = l := by
  simp [contents]

/-- The contents after `llist_insert_data` are the upsert of the contents
before. -/
theorem insert_contents (i : Int) (p : Option α) (w : world α)
    (l : List (Int × Option α)) (hl : contents w = some l) (hidle : lock_idle w) :
    ∃ w2, llist_insert_data i p w = .ok (0, w2) ∧ lock_idle w2 ∧
      contents w2 = some (upsert i p l) := by
  obtain ⟨l0, hl0, hmap⟩ := (contents_eq_some w l).mp hl
  obtain ⟨w2, l2, hins, hid, hn2, hm2⟩ := insert_nodes i p w l0 hl0 hidle
  refine ⟨w2, hins, hid, ?_⟩
  rw [contents_eq_some]
  exact ⟨l2, hn2, by rw [hm2, hmap]⟩

/-! ## The scans of `llist_find_data`, `llist_remove_data` and `llist_get_next_idx` -/

/-- On a chain the loop of `llist_find_data` computes `scan_out`. -/
theorem find_loop_chain (i : Int) (h : List (Option (llist_node_t α))) :
    ∀ (l : List (Nat × Int × Option α)) (f : Nat) (p prev : Option Nat),
      is_chain h p l → l.length ≤ f →
      find_loop i h f p prev none = .ok (scan_out i (l.map Prod.snd)) := by
  intro l
  induction l with
  | nil =>
    intro f p prev hc _
    simp only [is_chain] at hc
    subst hc
    cases f <;> rfl
  | cons x r ih =>
    intro f p prev hc hf
    obtain ⟨c, j, d⟩ := x
    obtain ⟨hp, nxc, hn, hr⟩ := hc
    subst hp
    cases f with
    | zero => simp at hf
    | succ f =>
      have hdc : deref h c = .ok { index := j, datap := d, nextp := nxc } := by
        rw [deref_eq_ok]; exact hn
      simp only [find_loop, hdc, List.map_cons, scan_out]
      by_cases hji : j = i
      · simp [hji]
      · by_cases hgt : j > i
        · simp [hji, hgt]
        · simp only [hji, hgt, if_false]
          exact ih f nxc (some c) hr (by simpa using hf)

/-- A lock that no writer holds is granted in shared mode at once. -/
theorem rlock_free (w : world α) (hw : w.rwlock.writer_writing = false) :
    pthread_rdwr_rlock_np w = .ok { w with rwlock :=
      { w.rwlock with readers_reading := w.rwlock.readers_reading + 1,
                      history := w.rwlock.history ++ [.rlock] } } := by
  simp [pthread_rdwr_rlock_np, hw]

/-- On a well-formed list `llist_find_data` returns 0 and `scan_out` of the
contents, and changes only the history of the lock. -/
theorem find_contents (i : Int) (w : world α) (l : List (Int × Option α))
    (hl : contents w = some l) (hw : w.rwlock.writer_writing = false) :
    ∃ w2, llist_find_data i w = .ok ((0, scan_out i l), w2) ∧
      w2.heap = w.heap ∧ w2.first = w.first ∧ w2.released = w.released ∧
      w2.rwlock.writer_writing = false ∧
      w2.rwlock.readers_reading = w.rwlock.readers_reading := by
  obtain ⟨l0, hl0, hmap⟩ := (contents_eq_some w l).mp hl
  rw [llist_nodes_iff] at hl0
  have hlen := is_chain_length_le _ _ _ hl0
  have hloop := find_loop_chain i w.heap l0 (w.heap.length + 1) w.first w.first hl0 (by omega)
  rw [hmap] at hloop
  refine ⟨pthread_rdwr_runlock_np { w with rwlock :=
      { w.rwlock with readers_reading := w.rwlock.readers_reading + 1,
                      history := w.rwlock.history ++ [.rlock] } },
    by simp only [llist_find_data, rlock_free w hw, hloop], rfl, rfl, rfl, hw, ?_⟩
  simp [pthread_rdwr_runlock_np]

/-- On a chain the loop of `llist_remove_data` leaves `scan_out` in the output,
and without a match it writes nothing. -/
theorem remove_loop_chain (i : Int) :
    ∀ (l : List (Nat × Int × Option α)) (f : Nat) (cur prev : Option Nat) (w : world α),
      is_chain w.heap cur l → l.length ≤ f →
      (∀ c, cur = some c → ∃ q pn, prev = some q ∧ w.heap[q]? = some (some pn)) →
      ∃ w2, remove_loop i f cur prev none w = .ok (scan_out i (l.map Prod.snd), w2) ∧
        w2.first = w.first ∧ w2.rwlock = w.rwlock ∧ w2.released = w.released ∧
        ((∀ d, (i, d) ∉ l.map Prod.snd) → w2 = w) := by
  intro l
  induction l with
  | nil =>
    intro f cur prev w hc _ _
    simp only [is_chain] at hc
    subst hc
    exact ⟨w, by cases f <;> rfl, rfl, rfl, rfl, fun _ => rfl⟩
  | cons x r ih =>
    intro f cur prev w hc hf hprev
    obtain ⟨c, j, d⟩ := x
    obtain ⟨hp, nxc, hn, hr⟩ := hc
    subst hp
    obtain ⟨q, pn, hq, hpn⟩ := hprev c rfl
    subst hq
    cases f with
    | zero => simp at hf
    | succ f =>
      have hdc : deref w.heap c = .ok { index := j, datap := d, nextp := nxc } := by
        rw [deref_eq_ok]; exact hn
      have hdq : deref w.heap q = .ok pn := by
        rw [deref_eq_ok]; exact hpn
      simp only [remove_loop, hdc, List.map_cons, scan_out]
      by_cases hji : j = i
      · refine ⟨{ w with heap := free_node (store w.heap q { pn with nextp := nxc }) c },
          by simp only [hji, if_true, hdq], rfl, rfl, rfl, ?_⟩
        intro hab
        exact absurd (by simp [hji]) (hab d)
      · by_cases hgt : j > i
        · exact ⟨w, by simp [hji, hgt], rfl, rfl, rfl, fun _ => rfl⟩
        · simp only [hji, hgt, if_false]
          obtain ⟨w2, h1, h2, h3, h4, h5⟩ := ih f nxc (some c) w hr (by simpa using hf)
            (fun _ _ => ⟨c, _, rfl, hn⟩)
          refine ⟨w2, h1, h2, h3, h4, ?_⟩
          intro hab
          apply h5
          intro e he
          exact hab e (List.mem_cons_of_mem _ he)

/-- On a well-formed list with an idle lock `llist_remove_data` returns 0 and
`scan_out` of the contents, and without a match heap and head stay as they are.
-/
theorem remove_contents (i : Int) (w : world α) (l : List (Int × Option α))
    (hl : contents w = some l) (hidle : lock_idle w) :
    ∃ w2, llist_remove_data i w = .ok ((0, scan_out i l), w2) ∧ lock_idle w2 ∧
      ((∀ d, (i, d) ∉ l) →
        w2.heap = w.heap ∧ w2.first = w.first ∧ w2.released = w.released) := by
  obtain ⟨l0, hl0, hmap⟩ := (contents_eq_some w l).mp hl
  rw [llist_nodes_iff] at hl0
  have hlen := is_chain_length_le _ _ _ hl0
  obtain ⟨w2, h1, h2, h3, h4, h5⟩ := remove_loop_chain i l0 (w.heap.length + 1) w.first w.first
    { w with rwlock :=
      { w.rwlock with writer_writing := true,
                      history := w.rwlock.history ++ [.wlock] } } hl0 (by omega)
    (by
      intro c hc
      cases l0 with
      | nil => simp only [is_chain] at hl0; rw [hl0] at hc; cases hc
      | cons x r =>
        obtain ⟨a, j, d⟩ := x
        obtain ⟨hp, nx, hn, _⟩ := hl0
        rw [hp] at hc
        cases hc
        exact ⟨c, _, hp, hn⟩)
  rw [hmap] at h1 h5
  refine ⟨pthread_rdwr_wunlock_np w2, ?_, ?_, ?_⟩
  · simp only [llist_remove_data, wlock_idle w hidle]
    simp only [h1]
  · constructor
    · rfl
    · show w2.rwlock.readers_reading = 0
      rw [h3]; exact hidle.2
  · intro hab
    rw [h5 hab]
    exact ⟨rfl, rfl, rfl⟩

/-- On a chain the loop of `llist_get_next_idx` computes `next_out`. -/
theorem next_idx_loop_chain (i : Int) (h : List (Option (llist_node_t α))) :
    ∀ (l : List (Nat × Int × Option α)) (f : Nat) (p prev : Option Nat),
      is_chain h p l → l.length ≤ f →
      next_idx_loop i h f p prev = .ok (next_out i (l.map Prod.snd)) := by
  intro l
  induction l with
  | nil =>
    intro f p prev hc _
    simp only [is_chain] at hc
    subst hc
    cases f <;> rfl
  | cons x r ih =>
    intro f p prev hc hf
    obtain ⟨c, j, d⟩ := x
    obtain ⟨hp, nxc, hn, hr⟩ := hc
    subst hp
    cases f with
    | zero => simp at hf
    | succ f =>
      have hdc : deref h c = .ok { index := j, datap := d, nextp := nxc } := by
        rw [deref_eq_ok]; exact hn
      have hrec := ih f nxc (some c) hr (by simpa using hf)
      simp only [next_idx_loop, hdc, List.map_cons, next_out]
      by_cases hji : j = i
      · simp only [hji, if_true]
        cases r with
        | nil =>
          simp only [is_chain] at hr
          subst hr
          simp only [List.map_nil]
          cases f <;> rfl
        | cons y r2 =>
          obtain ⟨b, k, e⟩ := y
          obtain ⟨hp2, nxb, hnb, _⟩ := hr
          subst hp2
          have hdb : deref h b = .ok { index := k, datap := e, nextp := nxb } := by
            rw [deref_eq_ok]; exact hnb
          simp only [hdb, List.map_cons]
      · simp only [hji, if_false]
        exact hrec

/-- On a well-formed list `llist_get_next_idx` returns `next_out` of the
contents, or -1 when that is `none`, and writes nothing to heap or head. -/
theorem next_idx_contents (i : Int) (w : world α) (l : List (Int × Option α))
    (hl : contents w = some l) (hw : w.rwlock.writer_writing = false) :
    ∃ w2, llist_get_next_idx i w = .ok ((next_out i l).getD (-1), w2) ∧
      w2.heap = w.heap ∧ w2.first = w.first ∧ w2.released = w.released := by
  obtain ⟨l0, hl0, hmap⟩ := (contents_eq_some w l).mp hl
  rw [llist_nodes_iff] at hl0
  have hlen := is_chain_length_le _ _ _ hl0
  have hloop := next_idx_loop_chain i w.heap l0 (w.heap.length + 1) w.first w.first hl0 (by omega)
  rw [hmap] at hloop
  simp only [llist_get_next_idx, rlock_free w hw, hloop]
  cases next_out i l with
  | none => exact ⟨_, rfl, rfl, rfl, rfl⟩
  | some j => exact ⟨_, rfl, rfl, rfl, rfl⟩

/-- The contents depend on the heap and the head only. -/
theorem contents_congr (w w2 : world α) (hh : w2.heap = w.heap) (hf : w2.first = w.first) :
    contents w2 = contents w := by
  simp [contents, llist_nodes, hh, hf]

/-! ## Facts about contents -/

/-- Strict ascent of a list with a first element. -/
theorem ascending_cons (j : Int) (d : Option α) (r : List (Int × Option α)) :
    ascending ((j, d) :: r) ↔ (∀ x ∈ r, j < x.1) ∧ ascending r := by
  simp [ascending, List.pairwise_cons]

/-- On ascending contents the scan finds the payload of every node. -/
theorem scan_out_mem (i : Int) (p : Option α) :
    ∀ (l : List (Int × Option α)), ascending l → (i, p) ∈ l → scan_out i l = p := by
  intro l
  induction l with
  | nil => intro _ hm; simp at hm
  | cons x r ih =>
    intro hasc hm
    obtain ⟨j, d⟩ := x
    rw [ascending_cons] at hasc
    simp only [List.mem_cons, Prod.mk.injEq] at hm
    simp only [scan_out]
    rcases hm with ⟨h1, h2⟩ | hm
    · simp [h1, h2]
    · have hlt : j < i := hasc.1 (i, p) hm
      have h1 : ¬ j = i := by omega
      have h2 : ¬ j > i := by omega
      simp only [h1, h2, if_false]
      exact ih hasc.2 hm

/-- Without a node of the index the scan leaves `NULL`. -/
theorem scan_out_absent (i : Int) :
    ∀ (l : List (Int × Option α)), (∀ d, (i, d) ∉ l) → scan_out i l = none := by
  intro l
  induction l with
  | nil => intro _; rfl
  | cons x r ih =>
    intro hab
    obtain ⟨j, d⟩ := x
    simp only [scan_out]
    by_cases hji : j = i
    · exact absurd (by simp [hji]) (hab d)
    · by_cases hgt : j > i
      · simp [hji, hgt]
      · simp only [hji, hgt, if_false]
        exact ih (fun e he => hab e (List.mem_cons_of_mem _ he))

/-- After an upsert of `(i, p)` the scan for `i` finds `p`. -/
theorem scan_out_upsert (i : Int) (p : Option α) :
    ∀ (l : List (Int × Option α)), scan_out i (upsert i p l) = p := by
  intro l
  induction l with
  | nil => simp [upsert, scan_out]
  | cons x r ih =>
    obtain ⟨j, d⟩ := x
    simp only [upsert]
    by_cases hji : j = i
    · simp [hji, scan_out]
    · by_cases hgt : j > i
      · simp [hji, hgt, scan_out]
      · simp [hji, hgt, scan_out, ih]

/-- An upsert adds no element but the new one. -/
theorem mem_upsert_cases (i : Int) (p : Option α) :
    ∀ (l : List (Int × Option α)) (x : Int × Option α),
      x ∈ upsert i p l → x = (i, p) ∨ x ∈ l := by
  intro l
  induction l with
  | nil => intro x hx; simp [upsert] at hx; exact Or.inl hx
  | cons y r ih =>
    intro x hx
    obtain ⟨j, d⟩ := y
    simp only [upsert] at hx
    by_cases hji : j = i
    · simp only [hji, if_true, List.mem_cons] at hx
      rcases hx with hx | hx
      · exact Or.inl hx
      · exact Or.inr (List.mem_cons_of_mem _ hx)
    · by_cases hgt : j > i
      · simp only [hji, hgt, if_true, if_false, List.mem_cons] at hx
        rcases hx with hx | hx | hx
        · exact Or.inl hx
        · exact Or.inr (by simp [hx])
        · exact Or.inr (List.mem_cons_of_mem _ hx)
      · simp only [hji, hgt, if_false, List.mem_cons] at hx
        rcases hx with hx | hx
        · exact Or.inr (by simp [hx])
        · rcases ih x hx with h | h
          · exact Or.inl h
          · exact Or.inr (List.mem_cons_of_mem _ h)

/-- An upsert keeps strict ascent. -/
theorem upsert_ascending (i : Int) (p : Option α) :
    ∀ (l : List (Int × Option α)), ascending l → ascending (upsert i p l) := by
  intro l
  induction l with
  | nil => intro _; simp [upsert, ascending]
  | cons x r ih =>
    intro hasc
    obtain ⟨j, d⟩ := x
    have hasc0 := hasc
    rw [ascending_cons] at hasc
    simp only [upsert]
    by_cases hji : j = i
    · subst hji
      simp only [if_true]
      rw [ascending_cons]
      exact hasc
    · by_cases hgt : j > i
      · simp only [hji, hgt, if_true, if_false]
        rw [ascending_cons]
        refine ⟨?_, hasc0⟩
        intro x hx
        simp only [List.mem_cons] at hx
        rcases hx with hx | hx
        · subst hx; exact hgt
        · have := hasc.1 x hx
          omega
      · simp only [hji, hgt, if_false]
        rw [ascending_cons]
        refine ⟨?_, ih hasc.2⟩
        intro x hx
        rcases mem_upsert_cases i p r x hx with h | h
        · subst h
          show j < i
          omega
        · exact hasc.1 x h

/-- Upserting the same pair twice is upserting it once. -/
theorem upsert_idem (i : Int) (p : Option α) :
    ∀ (l : List (Int × Option α)), upsert i p (upsert i p l) = upsert i p l := by
  intro l
  induction l with
  | nil => simp [upsert]
  | cons x r ih =>
    obtain ⟨j, d⟩ := x
    by_cases hji : j = i
    · simp [upsert, hji]
    · by_cases hgt : j > i
      · simp [upsert, hji, hgt]
      · simp [upsert, hji, hgt, ih]

/-- No element above `i` has index `i`. -/
theorem filter_none_of_gt (i : Int) :
    ∀ (r : List (Int × Option α)), (∀ x ∈ r, i < x.1) →
      r.filter (fun x => decide (x.1 = i)) = [] := by
  intro r hr
  rw [List.filter_eq_nil_iff]
  intro x hx
  have := hr x hx
  simp
  omega

/-- After an upsert into ascending contents exactly one element has the index,
with the new payload. -/
theorem upsert_filter (i : Int) (p : Option α) :
    ∀ (l : List (Int × Option α)), ascending l →
      (upsert i p l).filter (fun x => decide (x.1 = i)) = [(i, p)] := by
  intro l
  induction l with
  | nil => intro _; simp [upsert]
  | cons x r ih =>
    intro hasc
    obtain ⟨j, d⟩ := x
    rw [ascending_cons] at hasc
    simp only [upsert]
    by_cases hji : j = i
    · subst hji
      simp only [if_true]
      rw [List.filter_cons_of_pos (by simp), filter_none_of_gt j r hasc.1]
    · by_cases hgt : j > i
      · simp only [hji, hgt, if_true, if_false]
        rw [List.filter_cons_of_pos (by simp), List.filter_cons_of_neg (by simpa using hji),
          filter_none_of_gt i r (fun x hx => by have := hasc.1 x hx; omega)]
      · simp only [hji, hgt, if_false]
        rw [List.filter_cons_of_neg (by simpa using hji)]
        exact ih hasc.2

/-- Strictly ascending indices are pairwise distinct. -/
theorem ascending_nodup (l : List (Int × Option α)) (hasc : ascending l) :
    (l.map Prod.fst).Nodup := by
  unfold ascending at hasc
  exact hasc.imp (fun h => ne_of_lt h)

/-- With pairwise distinct indices `next_out` is the index that follows the
node of index `i`. -/
theorem next_out_succ (i j : Int) (d e : Option α) (l2 : List (Int × Option α)) :
    ∀ (l1 : List (Int × Option α)),
      ((l1 ++ (i, d) :: (j, e) :: l2).map Prod.fst).Nodup →
      next_out i (l1 ++ (i, d) :: (j, e) :: l2) = some j := by
  intro l1
  induction l1 with
  | nil => intro _; simp [next_out]
  | cons x r ih =>
    intro hnd
    obtain ⟨k, c⟩ := x
    simp only [List.cons_append, List.map_cons, List.nodup_cons] at hnd
    have hki : ¬ k = i := by
      intro h
      apply hnd.1
      subst h
      simp
    simp only [List.cons_append, next_out, hki, if_false]
    exact ih hnd.2

/-! ## The claims -/

/-- C1: on every well-formed list with an idle lock (strictly ascending or
not), for every index `i` and payload `p`, `llist_insert_data i p` returns 0
and a following `llist_find_data i` returns 0 with `p` in its output, whether
the index was absent before or present. -/
theorem insert_then_find (w : world α) (l : List (Int × Option α)) (i : Int) (p : Option α)
    (hl : contents w = some l) (hidle : lock_idle w) :
    ∃ w1 w2, llist_insert_data i p w = .ok (0, w1) ∧
      llist_find_data i w1 = .ok ((0, p), w2) := by
  obtain ⟨w1, hins, hid, hc1⟩ := insert_contents i p w l hl hidle
  obtain ⟨w2, hfind, _⟩ := find_contents i w1 _ hc1 hid.1
  rw [scan_out_upsert] at hfind
  exact ⟨w1, w2, hins, hfind⟩

/-- A concrete instance on the list 1:y, 2:z, 3:x, where every hypothesis holds. -/
theorem insert_then_find_witness :
    contents sample = some sample_contents ∧
    lock_idle sample ∧
    ∃ w1 w2, llist_insert_data 5 (some "a") sample = .ok (0, w1) ∧
      llist_find_data 5 w1 = .ok ((0, some "a"), w2) :=
  ⟨by decide, by decide,
    insert_then_find sample sample_contents 5 (some "a") (by decide) (by decide)⟩

/-- C2: on a strictly ascending list whose lock no writer holds, for every node
`(i, p)` of the list, `llist_find_data i` returns 0 with `p` in its output and
leaves the heap, the head and hence the contents as they were: the early exit
on a larger index never skips a present index. -/
theorem find_present (w : world α) (l : List (Int × Option α)) (i : Int) (p : Option α)
    (hl : contents w = some l) (hasc : ascending l) (hmem : (i, p) ∈ l)
    (hw : w.rwlock.writer_writing = false) :
    ∃ w2, llist_find_data i w = .ok ((0, p), w2) ∧
      w2.heap = w.heap ∧ w2.first = w.first ∧ contents w2 = some l := by
  obtain ⟨w2, hfind, hh, hf, _⟩ := find_contents i w l hl hw
  rw [scan_out_mem i p l hasc hmem] at hfind
  exact ⟨w2, hfind, hh, hf, by rw [contents_congr w w2 hh hf, hl]⟩

/-- A concrete instance on the list 1:y, 2:z, 3:x, where every hypothesis holds. -/
theorem find_present_witness :
    contents sample = some sample_contents ∧
    ascending sample_contents ∧
    ∃ w2, llist_find_data 3 sample = .ok ((0, some "x"), w2) ∧
      w2.heap = sample.heap ∧ w2.first = sample.first ∧
      contents w2 = some sample_contents :=
  ⟨by decide, by decide,
    find_present sample sample_contents 3 (some "x") (by decide) (by decide) (by decide)
      (by decide)⟩

/-- C3: on a strictly ascending list with an idle lock, for every index `i` and
payload `p`, `llist_insert_data i p` returns 0 and leaves a list whose indices
are again strictly ascending, so that no two nodes share an index. -/
theorem insert_keeps_ascending (w : world α) (l : List (Int × Option α)) (i : Int)
    (p : Option α) (hl : contents w = some l) (hasc : ascending l) (hidle : lock_idle w) :
    ∃ w2 l2, llist_insert_data i p w = .ok (0, w2) ∧ contents w2 = some l2 ∧
      ascending l2 ∧ (l2.map Prod.fst).Nodup := by
  obtain ⟨w2, hins, _, hc2⟩ := insert_contents i p w l hl hidle
  have h2 := upsert_ascending i p l hasc
  exact ⟨w2, _, hins, hc2, h2, ascending_nodup _ h2⟩

/-- A concrete instance on the list 1:y, 2:z, 3:x, where every hypothesis holds. -/
theorem insert_keeps_ascending_witness :
    contents sample = some sample_contents ∧
    ascending sample_contents ∧
    lock_idle sample ∧
    ∃ w2 l2, llist_insert_data 0 (some "a") sample = .ok (0, w2) ∧ contents w2 = some l2 ∧
      ascending l2 ∧ (l2.map Prod.fst).Nodup :=
  ⟨by decide, by decide, by decide,
    insert_keeps_ascending sample sample_contents 0 (some "a") (by decide) (by decide)
      (by decide)⟩

/-- C4: on a strictly ascending list with an idle lock, for every node `(i, p)`
of the list, the first one included, `llist_remove_data i` returns 0 with `p`
in its output. -/
theorem remove_yields_payload (w : world α) (l : List (Int × Option α)) (i : Int)
    (p : Option α) (hl : contents w = some l) (hasc : ascending l) (hmem : (i, p) ∈ l)
    (hidle : lock_idle w) :
    ∃ w2, llist_remove_data i w = .ok ((0, p), w2) := by
  obtain ⟨w2, hrem, _⟩ := remove_contents i w l hl hidle
  rw [scan_out_mem i p l hasc hmem] at hrem
  exact ⟨w2, hrem⟩

/-- A concrete instance on the list 1:y, 2:z, 3:x, where every hypothesis holds. -/
theorem remove_yields_payload_witness :
    contents sample = some sample_contents ∧
    ascending sample_contents ∧
    lock_idle sample ∧
    ∃ w2, llist_remove_data 1 sample = .ok ((0, some "y"), w2) :=
  ⟨by decide, by decide, by decide,
    remove_yields_payload sample sample_contents 1 (some "y") (by decide) (by decide) (by decide)
      (by decide)⟩

/-- C5: on every well-formed list with an idle lock, the empty list included,
and for every index `i` that no node carries, `llist_find_data i` and
`llist_remove_data i` each return 0 with `NULL` in the output and leave the
heap of nodes and the head as they were. -/
theorem absent_index_untouched (w : world α) (l : List (Int × Option α)) (i : Int)
    (hl : contents w = some l) (habs : ∀ d, (i, d) ∉ l) (hidle : lock_idle w) :
    (∃ w2, llist_find_data i w = .ok ((0, none), w2) ∧
      w2.heap = w.heap ∧ w2.first = w.first) ∧
    (∃ w3, llist_remove_data i w = .ok ((0, none), w3) ∧
      w3.heap = w.heap ∧ w3.first = w.first) := by
  obtain ⟨w2, hfind, hh, hf, _⟩ := find_contents i w l hl hidle.1
  obtain ⟨w3, hrem, _, hsame⟩ := remove_contents i w l hl hidle
  rw [scan_out_absent i l habs] at hfind hrem
  obtain ⟨hh3, hf3, _⟩ := hsame habs
  exact ⟨⟨w2, hfind, hh, hf⟩, ⟨w3, hrem, hh3, hf3⟩⟩

/-- A concrete instance on the list 1:y, 2:z, 3:x, where every hypothesis holds. -/
theorem absent_index_untouched_witness :
    contents sample = some sample_contents ∧
    (∀ d, ((0 : Int), d) ∉ sample_contents) ∧
    lock_idle sample ∧
    (∃ w2, llist_find_data 0 sample = .ok ((0, none), w2) ∧
      w2.heap = sample.heap ∧ w2.first = sample.first) ∧
    (∃ w3, llist_remove_data 0 sample = .ok ((0, none), w3) ∧
      w3.heap = sample.heap ∧ w3.first = sample.first) :=
  ⟨by decide, by simp [sample_contents], by decide,
    absent_index_untouched sample sample_contents 0 (by decide) (by simp [sample_contents])
      (by decide)⟩

/-- C6: on the empty list made by `llist_init`, `llist_insert_data 5 "a"`
followed by `llist_remove_data 5` yields "a", but the head is not advanced: it
still points to the freed node, so the contents are not the empty contents the
list had before the insertion. -/
theorem remove_round_trip_dangling_head :
    ∃ w0 w1 w2 : world String,
      llist_init blank = .ok (0, w0) ∧ contents w0 = some [] ∧
      llist_insert_data 5 (some "a") w0 = .ok (0, w1) ∧
      contents w1 = some [(5, some "a")] ∧
      llist_remove_data 5 w1 = .ok ((0, some "a"), w2) ∧
      w2.first = some 0 ∧ w2.heap = [none] ∧ contents w2 = none :=
  ⟨_, _, _, rfl, rfl, rfl, rfl, rfl, rfl, rfl, rfl⟩

/-- C7: on a strictly ascending list with an idle lock, calling
`llist_insert_data i p` twice in a row leaves the same contents as calling it
once; in these contents exactly one node has index `i` and it holds `p`. -/
theorem insert_twice (w : world α) (l : List (Int × Option α)) (i : Int) (p : Option α)
    (hl : contents w = some l) (hasc : ascending l) (hidle : lock_idle w) :
    ∃ w1 w2 l1, llist_insert_data i p w = .ok (0, w1) ∧
      llist_insert_data i p w1 = .ok (0, w2) ∧
      contents w1 = some l1 ∧ contents w2 = some l1 ∧
      l1.filter (fun x => decide (x.1 = i)) = [(i, p)] := by
  obtain ⟨w1, hins1, hid1, hc1⟩ := insert_contents i p w l hl hidle
  obtain ⟨w2, hins2, _, hc2⟩ := insert_contents i p w1 _ hc1 hid1
  rw [upsert_idem] at hc2
  exact ⟨w1, w2, _, hins1, hins2, hc1, hc2, upsert_filter i p l hasc⟩

/-- A concrete instance on the list 1:y, 2:z, 3:x, where every hypothesis holds. -/
theorem insert_twice_witness :
    contents sample = some sample_contents ∧
    ascending sample_contents ∧
    lock_idle sample ∧
    ∃ w1 w2 l1, llist_insert_data 2 (some "a") sample = .ok (0, w1) ∧
      llist_insert_data 2 (some "a") w1 = .ok (0, w2) ∧
      contents w1 = some l1 ∧ contents w2 = some l1 ∧
      l1.filter (fun x => decide (x.1 = 2)) = [(2, some "a")] :=
  ⟨by decide, by decide, by decide,
    insert_twice sample sample_contents 2 (some "a") (by decide) (by decide) (by decide)⟩

/-- C8: the sequence `llist_init`, `llist_insert_data 1 "y"`,
`llist_insert_data 2 "z"`, `llist_remove_data 1` ends in a state whose head
points to a freed cell, so the nodes reachable from the head are not live
nodes; the next `llist_insert_data` dereferences the freed node. -/
theorem remove_first_breaks_invariant :
    ∃ w0 w1 w2 w3 : world String,
      llist_init blank = .ok (0, w0) ∧
      llist_insert_data 1 (some "y") w0 = .ok (0, w1) ∧
      llist_insert_data 2 (some "z") w1 = .ok (0, w2) ∧
      contents w2 = some [(1, some "y"), (2, some "z")] ∧
      llist_remove_data 1 w2 = .ok ((0, some "y"), w3) ∧
      w3.first = some 0 ∧ w3.heap[0]? = some none ∧ contents w3 = none ∧
      llist_insert_data 3 (some "x") w3 = .error .fault :=
  ⟨_, _, _, _, rfl, rfl, rfl, rfl, rfl, rfl, rfl, rfl, rfl⟩

/-- C9: the end-to-end scenario run on the code.  The three inserts give
1:y, 2:z, 3:x, `llist_get_next_idx 1` returns 2 and `llist_get_count` returns
3, but `llist_get_next_idx` has returned with the shared lock still held, so
`llist_remove_data 2` waits for the exclusive lock for ever and yields
nothing.  Called right after the inserts, while the lock is idle,
`llist_remove_data 2` does yield "z" and leave 1:y, 3:x. -/
theorem end_to_end_blocks :
    ∃ w0 w1 w2 w3 w4 w5 w6 : world String,
      llist_init blank = .ok (0, w0) ∧
      llist_insert_data 3 (some "x") w0 = .ok (0, w1) ∧
      llist_insert_data 1 (some "y") w1 = .ok (0, w2) ∧
      llist_insert_data 2 (some "z") w2 = .ok (0, w3) ∧
      contents w3 = some [(1, some "y"), (2, some "z"), (3, some "x")] ∧
      llist_get_next_idx 1 w3 = .ok (2, w4) ∧
      w4.rwlock.readers_reading = 1 ∧
      llist_get_count w4 = .ok (3, w5) ∧
      w5.rwlock.readers_reading = 1 ∧
      contents w5 = some [(1, some "y"), (2, some "z"), (3, some "x")] ∧
      llist_remove_data 2 w5 = .error .blocked ∧
      llist_remove_data 2 w3 = .ok ((0, some "z"), w6) ∧
      contents w6 = some [(1, some "y"), (3, some "x")] :=
  ⟨_, _, _, _, _, _, _, rfl, rfl, rfl, rfl, rfl, rfl, rfl, rfl, rfl, rfl, rfl, rfl, rfl⟩

/-- C10: on a list with pairwise distinct indices whose lock no writer holds,
for every index `i` carried by a node that has a successor,
`llist_get_next_idx i` returns the index of that successor and leaves the
heap, the head and hence the contents as they were. -/
theorem next_idx_successor (w : world α) (l1 l2 : List (Int × Option α)) (i j : Int)
    (d e : Option α)
    (hl : contents w = some (l1 ++ (i, d) :: (j, e) :: l2))
    (hnd : ((l1 ++ (i, d) :: (j, e) :: l2).map Prod.fst).Nodup)
    (hw : w.rwlock.writer_writing = false) :
    ∃ w2, llist_get_next_idx i w = .ok (j, w2) ∧
      w2.heap = w.heap ∧ w2.first = w.first ∧
      contents w2 = some (l1 ++ (i, d) :: (j, e) :: l2) := by
  obtain ⟨w2, hnext, hh, hf, _⟩ := next_idx_contents i w _ hl hw
  rw [next_out_succ i j d e l2 l1 hnd] at hnext
  exact ⟨w2, hnext, hh, hf, by rw [contents_congr w w2 hh hf, hl]⟩

/-- A concrete instance on the list 1:y, 2:z, 3:x, where every hypothesis holds. -/
theorem next_idx_successor_witness :
    contents sample = some ([(1, some "y")] ++ (2, some "z") :: (3, some "x") :: []) ∧
    (([((1 : Int), some "y")] ++ (2, some "z") :: (3, some "x") :: []).map Prod.fst).Nodup ∧
    ∃ w2, llist_get_next_idx 2 sample = .ok (3, w2) ∧
      w2.heap = sample.heap ∧ w2.first = sample.first ∧
      contents w2 = some ([(1, some "y")] ++ (2, some "z") :: (3, some "x") :: []) :=
  ⟨by decide, by decide,
    next_idx_successor sample [(1, some "y")] [] 2 3 (some "z") (some "x") (by decide)
      (by decide) (by decide)⟩

/-! ## The lock around the scans -/

/-- The loop of `llist_insert_data` does not touch the lock. -/
theorem insert_loop_rwlock (i : Int) (p : Option α) :
    ∀ (f : Nat) (cur prev : Option Nat) (w : world α) (c2 p2 : Option Nat) (fd : Bool)
      (w2 : world α),
      insert_loop i p f cur prev w = .ok (c2, p2, fd, w2) → w2.rwlock = w.rwlock := by
  intro f
  induction f with
  | zero =>
    intro cur prev w c2 p2 fd w2 h
    cases cur with
    | none => simp [insert_loop] at h; rw [← h.2.2.2]
    | some c => simp [insert_loop] at h
  | succ f ih =>
    intro cur prev w c2 p2 fd w2 h
    cases cur with
    | none => simp [insert_loop] at h; rw [← h.2.2.2]
    | some c =>
      simp only [insert_loop] at h
      split at h
      · cases h
      · rename_i n hn
        split at h
        · simp at h
          rw [← h.2.2.2]
          simp [free_data_rwlock]
        · split at h
          · simp at h; rw [← h.2.2.2]
          · exact ih _ _ _ _ _ _ _ h

/-- Linking a new node in does not touch the lock. -/
theorem insert_new_rwlock (i : Int) (p : Option α) (cur prev : Option Nat) (w w3 : world α)
    (h : insert_new i p cur prev w = .ok w3) : w3.rwlock = w.rwlock := by
  simp only [insert_new] at h
  split at h
  · cases h; rfl
  · split at h
    · cases h
    · split at h
      · cases h
      · cases h; rfl

/-- The loop of `llist_remove_data` does not touch the lock. -/
theorem remove_loop_rwlock (i : Int) :
    ∀ (f : Nat) (cur prev : Option Nat) (out : Option α) (w : world α) (o2 : Option α)
      (w2 : world α),
      remove_loop i f cur prev out w = .ok (o2, w2) → w2.rwlock = w.rwlock := by
  intro f
  induction f with
  | zero =>
    intro cur prev out w o2 w2 h
    cases cur with
    | none => simp [remove_loop] at h; rw [← h.2]
    | some c => simp [remove_loop] at h
  | succ f ih =>
    intro cur prev out w o2 w2 h
    cases cur with
    | none => simp [remove_loop] at h; rw [← h.2]
    | some c =>
      simp only [remove_loop] at h
      split at h
      · cases h
      · split at h
        · split at h
          · cases h
          · split at h
            · cases h
            · simp at h; rw [← h.2]
        · split at h
          · simp at h; rw [← h.2]
          · exact ih _ _ _ _ _ _ h

/-- A call of `llist_insert_data` that returns has taken the lock exclusively
once and given it back once. -/
theorem insert_lock (i : Int) (p : Option α) (w w2 : world α) (r : Int)
    (h : llist_insert_data i p w = .ok (r, w2)) :
    r = 0 ∧ w2.rwlock =
      { readers_reading := w.rwlock.readers_reading,
        writer_writing := false,
        history := w.rwlock.history ++ [.wlock, .wunlock] } := by
  simp only [llist_insert_data, pthread_rdwr_wlock_np] at h
  split at h
  · cases h
  · rename_i w1 hw1
    split at hw1
    · cases hw1
    · cases hw1
      split at h
      · cases h
      · rename_i c2 p2 fd wl hloop
        have h1 := insert_loop_rwlock i p _ _ _ _ _ _ _ _ hloop
        split at h
        · cases h
          simp [pthread_rdwr_wunlock_np, h1]
        · split at h
          · cases h
          · rename_i w3 hnew
            have h2 := insert_new_rwlock i p _ _ _ _ hnew
            cases h
            simp [pthread_rdwr_wunlock_np, h1, h2]

/-- A call of `llist_remove_data` that returns has taken the lock exclusively
once and given it back once. -/
theorem remove_lock (i : Int) (w w2 : world α) (r : Int × Option α)
    (h : llist_remove_data i w = .ok (r, w2)) :
    r.1 = 0 ∧ w2.rwlock =
      { readers_reading := w.rwlock.readers_reading,
        writer_writing := false,
        history := w.rwlock.history ++ [.wlock, .wunlock] } := by
  simp only [llist_remove_data, pthread_rdwr_wlock_np] at h
  split at h
  · cases h
  · rename_i w1 hw1
    split at hw1
    · cases hw1
    · cases hw1
      split at h
      · cases h
      · rename_i o2 wl hloop
        have h1 := remove_loop_rwlock i _ _ _ _ _ _ _ hloop
        cases h
        simp [pthread_rdwr_wunlock_np, h1]

/-- A call of `llist_find_data` that returns has taken the lock in shared mode
once and given it back once. -/
theorem find_lock (i : Int) (w w2 : world α) (r : Int × Option α)
    (h : llist_find_data i w = .ok (r, w2)) :
    r.1 = 0 ∧ w2.rwlock =
      { readers_reading := w.rwlock.readers_reading,
        writer_writing := w.rwlock.writer_writing,
        history := w.rwlock.history ++ [.rlock, .runlock] } := by
  simp only [llist_find_data, pthread_rdwr_rlock_np] at h
  split at h
  · cases h
  · rename_i w1 hw1
    split at hw1
    · cases hw1
    · cases hw1
      split at h
      · cases h
      · cases h
        simp [pthread_rdwr_runlock_np]

/-! ## The loop of `llist_get_count` -/

/-- On a chain the loop of `llist_get_count` adds the number of nodes to the
counter, and faults when the sum does not fit an `int`. -/
theorem count_loop_chain (h : List (Option (llist_node_t α))) :
    ∀ (l : List (Nat × Int × Option α)) (f : Nat) (p : Option Nat) (c : Int),
      is_chain h p l → l.length ≤ f → c ≤ INT_MAX →
      count_loop h f p c =
        if c + (l.length : Int) ≤ INT_MAX then .ok (c + (l.length : Int)) else .error .fault := by
  intro l
  induction l with
  | nil =>
    intro f p c hc _ hle
    simp only [is_chain] at hc
    subst hc
    cases f <;> simp [count_loop, hle]
  | cons x r ih =>
    intro f p c hc hf hle
    obtain ⟨a, j, d⟩ := x
    obtain ⟨hp, nx, hn, hr⟩ := hc
    subst hp
    cases f with
    | zero => simp at hf
    | succ f =>
      have hda : deref h a = .ok { index := j, datap := d, nextp := nx } := by
        rw [deref_eq_ok]; exact hn
      simp only [count_loop, hda, List.length_cons]
      by_cases hmax : c = INT_MAX
      · have hno : ¬ (c + ((r.length + 1 : Nat) : Int) ≤ INT_MAX) := by
          push_cast; omega
        rw [if_pos hmax, if_neg hno]
      · simp only [hmax, if_false]
        rw [ih f nx (c + 1) hr (by simpa using hf) (by omega)]
        have e : c + 1 + (r.length : Int) = c + ((r.length + 1 : Nat) : Int) := by
          push_cast; omega
        rw [e]

/-- On a well-formed list `llist_get_count` returns the number of nodes when it
fits an `int` and faults otherwise; it changes only the history of the lock. -/
theorem count_contents (w : world α) (l : List (Int × Option α))
    (hl : contents w = some l) (hw : w.rwlock.writer_writing = false) :
    llist_get_count w =
      if (l.length : Int) ≤ INT_MAX then
        .ok ((l.length : Int), pthread_rdwr_runlock_np { w with rwlock :=
          { w.rwlock with readers_reading := w.rwlock.readers_reading + 1,
                          history := w.rwlock.history ++ [.rlock] } })
      else .error .fault := by
  obtain ⟨l0, hl0, hmap⟩ := (contents_eq_some w l).mp hl
  rw [llist_nodes_iff] at hl0
  have hlen := is_chain_length_le _ _ _ hl0
  have hloop := count_loop_chain w.heap l0 (w.heap.length + 1) w.first 0 hl0 (by omega)
    (by unfold INT_MAX; omega)
  have hll : l0.length = l.length := by rw [← hmap]; simp
  rw [hll] at hloop
  simp only [zero_add] at hloop
  simp only [llist_get_count, rlock_free w hw, hloop]
  by_cases hb : (l.length : Int) ≤ INT_MAX
  · simp only [if_pos hb]
  · simp only [if_neg hb]

/-! ## Unlinking a node that has a predecessor -/

/-- The scan of `llist_remove_data` from a node `q` that is not the match: the
loop leaves `scan_out` in the output, turns the chain behind `q` into its
`scan_erase`, and touches only `q` and the cells of that chain. -/
theorem remove_tail (i : Int) :
    ∀ (l : List (Nat × Int × Option α)) (f : Nat) (cur : Option Nat) (q : Nat)
      (nq : llist_node_t α) (w : world α),
      is_chain w.heap cur l → l.length ≤ f →
      w.heap[q]? = some (some nq) → nq.nextp = cur →
      q ∉ l.map Prod.fst →
      ∃ w2, remove_loop i f cur (some q) none w = .ok (scan_out i (l.map Prod.snd), w2) ∧
        w2.first = w.first ∧ w2.rwlock = w.rwlock ∧ w2.released = w.released ∧
        ∃ nx l2, w2.heap[q]? = some (some { nq with nextp := nx }) ∧
          is_chain w2.heap nx l2 ∧
          l2.map Prod.snd = scan_erase i (l.map Prod.snd) ∧
          (∀ a, a ≠ q → a ∉ l.map Prod.fst → w2.heap[a]? = w.heap[a]?) := by
  intro l
  induction l with
  | nil =>
    intro f cur q nq w hc _ hq hnx _
    simp only [is_chain] at hc
    subst hc
    refine ⟨w, by cases f <;> rfl, rfl, rfl, rfl, none, [], ?_, rfl, rfl, fun _ _ _ => rfl⟩
    rw [hq, node_eta _ _ hnx]
  | cons x r ih =>
    intro f cur q nq w hc hf hq hnx hqn
    obtain ⟨c, j, d⟩ := x
    have hnd := is_chain_nodup _ _ _ hc
    obtain ⟨hp, nxc, hn, hr⟩ := hc
    subst hp
    simp only [List.map_cons, List.nodup_cons, List.mem_cons, not_or] at hnd hqn
    have hcl : c < w.heap.length := get_lt _ _ _ hn
    have hql := get_lt _ _ _ hq
    cases f with
    | zero => simp at hf
    | succ f =>
      have hdc : deref w.heap c = .ok { index := j, datap := d, nextp := nxc } := by
        rw [deref_eq_ok]; exact hn
      have hdq : deref w.heap q = .ok nq := by
        rw [deref_eq_ok]; exact hq
      simp only [remove_loop, hdc, List.map_cons, scan_out, scan_erase]
      by_cases hji : j = i
      · -- the match: the link of q goes around c, and c is freed
        refine ⟨{ w with heap := free_node (store w.heap q { nq with nextp := nxc }) c },
          by simp only [hji, if_true, hdq], rfl, rfl, rfl, nxc, r, ?_, ?_, ?_, ?_⟩
        · show (free_node _ _)[_]? = _
          rw [free_get_ne _ _ _ (Ne.symm hqn.1), store_get_self _ _ _ hql]
        · refine is_chain_congr w.heap _ r nxc ?_ hr
          intro a ha
          show (free_node _ _)[_]? = _
          rw [free_get_ne, store_get_ne]
          · intro hqa; subst hqa; exact hqn.2 ha
          · intro hca; subst hca; exact hnd.1 ha
        · simp [hji]
        · intro a ha han
          simp only [List.map_cons, List.mem_cons, not_or] at han
          show (free_node _ _)[_]? = _
          rw [free_get_ne _ _ _ (Ne.symm han.1), store_get_ne _ _ _ _ (Ne.symm ha)]
      · by_cases hgt : j > i
        · refine ⟨w, by simp [hji, hgt], rfl, rfl, rfl, some c, (c, j, d) :: r, ?_,
            ⟨rfl, nxc, hn, hr⟩, by simp [hji, hgt], fun _ _ _ => rfl⟩
          rw [hq, node_eta _ _ hnx]
        · simp only [hji, hgt, if_false]
          obtain ⟨w2, hloop, hfst, hlk, hrel, nx, l2, hcq, hch, hmap, hfr⟩ :=
            ih f nxc c { index := j, datap := d, nextp := nxc } w hr (by simpa using hf) hn rfl
              hnd.1
          refine ⟨w2, hloop, hfst, hlk, hrel, some c, (c, j, d) :: l2, ?_,
            ⟨rfl, nx, hcq, hch⟩, by simp [hmap], ?_⟩
          · rw [hfr q hqn.1 hqn.2, hq, node_eta _ _ hnx]
          · intro a ha han
            simp only [List.map_cons, List.mem_cons, not_or] at han
            exact hfr a han.1 han.2

/-- The scan of `llist_remove_data` from a head that does not carry the index:
the head stays, and the chain becomes its `scan_erase`. -/
theorem remove_head_chain (i : Int) (w : world α) (l : List (Nat × Int × Option α))
    (hc : is_chain w.heap w.first l) (hhead : ∀ x ∈ l.head?, x.2.1 ≠ i) :
    ∃ w2, remove_loop i (w.heap.length + 1) w.first w.first none w
        = .ok (scan_out i (l.map Prod.snd), w2) ∧
      w2.first = w.first ∧ w2.rwlock = w.rwlock ∧
      ∃ l2, is_chain w2.heap w2.first l2 ∧
        l2.map Prod.snd = scan_erase i (l.map Prod.snd) := by
  have hlen := is_chain_length_le _ _ _ hc
  have hnd := is_chain_nodup _ _ _ hc
  cases l with
  | nil =>
    have hc0 := hc
    simp only [is_chain] at hc
    exact ⟨w, by rw [hc]; rfl, rfl, rfl, [], hc0, rfl⟩
  | cons x r =>
    obtain ⟨c, j, d⟩ := x
    have hc0 := hc
    obtain ⟨hp, nxc, hn, hr⟩ := hc
    simp only [List.map_cons, List.nodup_cons] at hnd
    have hji : ¬ j = i := hhead (c, j, d) (by simp)
    have hdc : deref w.heap c = .ok { index := j, datap := d, nextp := nxc } := by
      rw [deref_eq_ok]; exact hn
    by_cases hgt : j > i
    · exact ⟨w, by rw [hp]; simp [remove_loop, hdc, hji, hgt, scan_out], rfl, rfl,
        (c, j, d) :: r, hc0, by simp [scan_erase, hji, hgt]⟩
    · obtain ⟨w2, hloop, hfst, hlk, _, nx, l2, hcq, hch, hm2, _⟩ :=
        remove_tail i r w.heap.length nxc c { index := j, datap := d, nextp := nxc } w
          hr (by simp at hlen; omega) hn rfl hnd.1
      refine ⟨w2, ?_, hfst, hlk, (c, j, d) :: l2, ?_, ?_⟩
      · rw [hp]
        simp only [remove_loop, hdc, List.map_cons, scan_out]
        simp only [hji, hgt, if_false]
        exact hloop
      · exact ⟨by rw [hfst]; exact hp, nx, hcq, hch⟩
      · simp [scan_erase, hji, hgt, hm2]

/-- On a well-formed list with an idle lock whose first node, if any, does not
carry the index, `llist_remove_data` returns 0 and `scan_out` of the contents,
keeps the head, and leaves the `scan_erase` of the contents. -/
theorem remove_behind_head (i : Int) (w : world α) (l : List (Int × Option α))
    (hl : contents w = some l) (hidle : lock_idle w)
    (hhead : ∀ x ∈ l.head?, x.1 ≠ i) :
    ∃ w2, llist_remove_data i w = .ok ((0, scan_out i l), w2) ∧ lock_idle w2 ∧
      w2.first = w.first ∧ contents w2 = some (scan_erase i l) := by
  obtain ⟨l0, hl0, hmap⟩ := (contents_eq_some w l).mp hl
  rw [llist_nodes_iff] at hl0
  subst hmap
  have hh : ∀ x ∈ l0.head?, x.2.1 ≠ i := by
    intro x hx
    apply hhead x.2
    cases l0 with
    | nil => simp at hx
    | cons y r => simp at hx; subst hx; simp
  obtain ⟨w2, hloop, hfst, hlk, l2, hch, hm2⟩ :=
    remove_head_chain i { w with rwlock :=
      { w.rwlock with writer_writing := true,
                      history := w.rwlock.history ++ [.wlock] } } l0 hl0 hh
  refine ⟨pthread_rdwr_wunlock_np w2, ?_, ?_, hfst, ?_⟩
  · simp only [llist_remove_data, wlock_idle w hidle]
    simp only [hloop]
  · exact ⟨rfl, by show w2.rwlock.readers_reading = 0; rw [hlk]; exact hidle.2⟩
  · rw [contents_eq_some]
    refine ⟨l2, ?_, hm2⟩
    rw [llist_nodes_iff]
    exact hch

/-- The loop of `llist_change_data` ends in the same state as the loop of
`llist_remove_data`: the payload it writes sits in the node it frees.  Its
status is 0 exactly when the scan hits the index. -/
theorem change_loop_chain (i : Int) (p : Option α) :
    ∀ (l : List (Nat × Int × Option α)) (f : Nat) (cur prev : Option Nat) (st : Int)
      (w : world α),
      is_chain w.heap cur l → l.length ≤ f →
      (∀ c, cur = some c → ∃ q pn, prev = some q ∧ w.heap[q]? = some (some pn)) →
      ∃ out w2, remove_loop i f cur prev none w = .ok (out, w2) ∧
        change_loop i p f cur prev st w =
          .ok (if scan_hit i (l.map Prod.snd) then 0 else st, w2) := by
  intro l
  induction l with
  | nil =>
    intro f cur prev st w hc _ _
    simp only [is_chain] at hc
    subst hc
    exact ⟨none, w, by cases f <;> rfl, by cases f <;> simp [change_loop, scan_hit]⟩
  | cons x r ih =>
    intro f cur prev st w hc hf hprev
    obtain ⟨c, j, d⟩ := x
    obtain ⟨hp, nxc, hn, hr⟩ := hc
    subst hp
    obtain ⟨q, pn, hq, hpn⟩ := hprev c rfl
    subst hq
    have hcl : c < w.heap.length := get_lt _ _ _ hn
    cases f with
    | zero => simp at hf
    | succ f =>
      have hdc : deref w.heap c = .ok { index := j, datap := d, nextp := nxc } := by
        rw [deref_eq_ok]; exact hn
      have hdq : deref w.heap q = .ok pn := by
        rw [deref_eq_ok]; exact hpn
      simp only [remove_loop, change_loop, hdc, List.map_cons, scan_hit]
      by_cases hji : j = i
      · subst hji
        simp only [if_true, hdq]
        by_cases hqc : q = c
        · subst hqc
          have hpn2 : pn = { index := j, datap := d, nextp := nxc } := by
            rw [hn] at hpn; cases hpn; rfl
          have hd0 : deref (store w.heap q { index := j, datap := p, nextp := nxc }) q
              = .ok { index := j, datap := p, nextp := nxc } := by
            rw [deref_eq_ok]; exact store_get_self _ _ _ hcl
          refine ⟨_, _, rfl, ?_⟩
          rw [hd0]
          simp [store, free_node, List.set_set]
        · have hd0 : deref (store w.heap c { index := j, datap := p, nextp := nxc }) q
              = .ok pn := by
            rw [deref_eq_ok, store_get_ne _ _ _ _ (Ne.symm hqc)]; exact hpn
          refine ⟨_, _, rfl, ?_⟩
          rw [hd0]
          simp only [store, free_node]
          rw [List.set_comm _ _ _ (Ne.symm hqc), List.set_set]
      · by_cases hgt : j > i
        · exact ⟨none, w, by simp [hji, hgt], by simp [hji, hgt]⟩
        · simp only [hji, hgt, if_false]
          exact ih f nxc (some c) st w hr (by simpa using hf) (fun _ _ => ⟨c, _, rfl, hn⟩)

/-- On a well-formed list with an idle lock `llist_change_data` returns the
status 0 when the scan hits the index and -1 otherwise, and ends in the very
state in which `llist_remove_data` ends. -/
theorem change_as_remove (i : Int) (p : Option α) (w : world α) (l : List (Int × Option α))
    (hl : contents w = some l) (hidle : lock_idle w) :
    ∃ out w2, llist_remove_data i w = .ok ((0, out), w2) ∧
      llist_change_data i p w = .ok (if scan_hit i l then 0 else -1, w2) := by
  obtain ⟨l0, hl0, hmap⟩ := (contents_eq_some w l).mp hl
  rw [llist_nodes_iff] at hl0
  have hlen := is_chain_length_le _ _ _ hl0
  obtain ⟨out, w2, hrem, hchg⟩ := change_loop_chain i p l0 (w.heap.length + 1) w.first w.first
    (-1) { w with rwlock :=
      { w.rwlock with writer_writing := true,
                      history := w.rwlock.history ++ [.wlock] } } hl0 (by omega)
    (by
      intro c hc
      cases l0 with
      | nil => simp only [is_chain] at hl0; rw [hl0] at hc; cases hc
      | cons x r =>
        obtain ⟨a, j, d⟩ := x
        obtain ⟨hp, nx, hn, _⟩ := hl0
        rw [hp] at hc
        cases hc
        exact ⟨c, _, hp, hn⟩)
  rw [hmap] at hchg
  refine ⟨out, pthread_rdwr_wunlock_np w2, ?_, ?_⟩
  · simp only [llist_remove_data, wlock_idle w hidle]
    simp only [hrem]
  · simp only [llist_change_data, wlock_idle w hidle]
    simp only [hchg]

/-! ## More facts about contents -/

/-- In ascending contents the nodes before a node have smaller indices, the
nodes after it have larger ones, and dropping the node keeps the ascent. -/
theorem ascending_split (l1 l2 : List (Int × Option α)) (x : Int × Option α)
    (hasc : ascending (l1 ++ x :: l2)) :
    (∀ y ∈ l1, y.1 < x.1) ∧ (∀ y ∈ l2, x.1 < y.1) ∧ ascending (l1 ++ l2) := by
  unfold ascending at hasc ⊢
  simp only [List.map_append, List.map_cons, List.pairwise_append, List.pairwise_cons,
    List.mem_map, List.mem_cons, forall_exists_index, and_imp] at hasc ⊢
  obtain ⟨h1, ⟨h2, h3⟩, h4⟩ := hasc
  refine ⟨?_, ?_, h1, h3, ?_⟩
  · intro y hy
    exact h4 y.1 y hy rfl x.1 (Or.inl rfl)
  · intro y hy
    exact h2 y.1 y hy rfl
  · intro a y hy hya b z hz hzb
    exact h4 a y hy hya b (Or.inr ⟨z, hz, hzb⟩)

/-- A node of ascending contents is the only one with its index. -/
theorem ascending_absent_rest (l1 l2 : List (Int × Option α)) (i : Int) (d : Option α)
    (hasc : ascending (l1 ++ (i, d) :: l2)) : ∀ e, (i, e) ∉ l1 ++ l2 := by
  obtain ⟨h1, h2, _⟩ := ascending_split l1 l2 (i, d) hasc
  intro e he
  rcases List.mem_append.mp he with h | h
  · have := h1 _ h; simp at this
  · have := h2 _ h; simp at this

/-- A scan that hits has met a node with the index. -/
theorem scan_hit_mem (i : Int) :
    ∀ (l : List (Int × Option α)), scan_hit i l = true → ∃ d, (i, d) ∈ l := by
  intro l
  induction l with
  | nil => intro h; simp [scan_hit] at h
  | cons x r ih =>
    intro h
    obtain ⟨j, d⟩ := x
    simp only [scan_hit] at h
    by_cases hji : j = i
    · exact ⟨d, by simp [hji]⟩
    · by_cases hgt : j > i
      · simp [hji, hgt] at h
      · simp only [hji, hgt, if_false] at h
        obtain ⟨e, he⟩ := ih h
        exact ⟨e, List.mem_cons_of_mem _ he⟩

/-- On ascending contents the scan hits every index that a node carries. -/
theorem scan_hit_of_mem (i : Int) (d : Option α) :
    ∀ (l : List (Int × Option α)), ascending l → (i, d) ∈ l → scan_hit i l = true := by
  intro l
  induction l with
  | nil => intro _ hm; simp at hm
  | cons x r ih =>
    intro hasc hm
    obtain ⟨j, e⟩ := x
    rw [ascending_cons] at hasc
    simp only [List.mem_cons, Prod.mk.injEq] at hm
    simp only [scan_hit]
    rcases hm with ⟨h1, _⟩ | hm
    · simp [h1]
    · have hlt : j < i := hasc.1 (i, d) hm
      have h1 : ¬ j = i := by omega
      have h2 : ¬ j > i := by omega
      simp only [h1, h2, if_false]
      exact ih hasc.2 hm

/-- On ascending contents the unlinking scan deletes exactly the node that
carries the index. -/
theorem scan_erase_split (i : Int) (d : Option α) (l2 : List (Int × Option α)) :
    ∀ (l1 : List (Int × Option α)), ascending (l1 ++ (i, d) :: l2) →
      scan_erase i (l1 ++ (i, d) :: l2) = l1 ++ l2 := by
  intro l1
  induction l1 with
  | nil => intro _; simp [scan_erase]
  | cons x r ih =>
    intro hasc
    obtain ⟨j, e⟩ := x
    rw [List.cons_append, ascending_cons] at hasc
    have hlt : j < i := hasc.1 (i, d) (by simp)
    have h1 : ¬ j = i := by omega
    have h2 : ¬ j > i := by omega
    have e1 : scan_erase i ((j, e) :: (r ++ (i, d) :: l2))
        = (j, e) :: scan_erase i (r ++ (i, d) :: l2) := by
      simp only [scan_erase, h1, h2, if_false]
    rw [List.cons_append, e1, ih hasc.2, List.cons_append]

/-- A map that only rewrites the nodes of index `i` leaves contents without
such a node alone. -/
theorem map_rewrite_absent (i : Int) (p : Option α) :
    ∀ (r : List (Int × Option α)), (∀ x ∈ r, x.1 ≠ i) →
      r.map (fun x => if x.1 = i then (i, p) else x) = r := by
  intro r
  induction r with
  | nil => intro _; rfl
  | cons y r ih =>
    intro h
    have hy : ¬ y.1 = i := h y (by simp)
    simp only [List.map_cons, hy, if_false]
    rw [ih (fun x hx => h x (List.mem_cons_of_mem _ hx))]

/-- On ascending contents the scan of `llist_insert_data` computes the
reference sorted upsert. -/
theorem upsert_eq_reference (i : Int) (p : Option α) :
    ∀ (l : List (Int × Option α)), ascending l → upsert i p l = reference_upsert i p l := by
  intro l
  induction l with
  | nil => intro _; simp [upsert, reference_upsert]
  | cons x r ih =>
    intro hasc
    obtain ⟨j, d⟩ := x
    rw [ascending_cons] at hasc
    by_cases hji : j = i
    · subst hji
      have hr : ∀ x ∈ r, x.1 ≠ j := fun x hx => by have := hasc.1 x hx; omega
      simp only [upsert, reference_upsert, if_true, List.any_cons, decide_True, Bool.true_or,
        List.map_cons]
      rw [map_rewrite_absent j p r hr]
    · by_cases hgt : j > i
      · have hany : (r.any fun x => decide (x.1 = i)) = false := by
          rw [List.any_eq_false]
          intro x hx
          have := hasc.1 x hx
          simp; omega
        have hlow : r.filter (fun x => decide (x.1 < i)) = [] := by
          rw [List.filter_eq_nil_iff]
          intro x hx
          have := hasc.1 x hx
          simp; omega
        have hhigh : r.filter (fun x => decide (i < x.1)) = r := by
          rw [List.filter_eq_self]
          intro x hx
          have := hasc.1 x hx
          simp; omega
        have hj1 : ¬ j < i := by omega
        simp [upsert, reference_upsert, hji, hgt, hany, hlow, hhigh, hj1]
      · have hj1 : j < i := by omega
        have hj2 : ¬ i < j := by omega
        have hrec := ih hasc.2
        simp only [upsert, hji, hgt, if_false, hrec]
        simp only [reference_upsert, List.any_cons, hji, decide_False, Bool.false_or]
        by_cases hany : (r.any fun x => decide (x.1 = i)) = true
        · simp [hany, hji]
        · simp [hany, hj1, hj2]

/-- Inserting an index that no node carries makes the contents one longer. -/
theorem upsert_length_absent (i : Int) (p : Option α) :
    ∀ (l : List (Int × Option α)), (∀ d, (i, d) ∉ l) →
      (upsert i p l).length = l.length + 1 := by
  intro l
  induction l with
  | nil => intro _; simp [upsert]
  | cons x r ih =>
    intro hab
    obtain ⟨j, d⟩ := x
    by_cases hji : j = i
    · exact absurd (by simp [hji]) (hab d)
    · by_cases hgt : j > i
      · simp [upsert, hji, hgt]
      · simp [upsert, hji, hgt, ih (fun e he => hab e (List.mem_cons_of_mem _ he))]

/-- Inserting an index that a node of ascending contents carries keeps the
number of nodes. -/
theorem upsert_length_present (i : Int) (p d : Option α) :
    ∀ (l : List (Int × Option α)), ascending l → (i, d) ∈ l →
      (upsert i p l).length = l.length := by
  intro l
  induction l with
  | nil => intro _ hm; simp at hm
  | cons x r ih =>
    intro hasc hm
    obtain ⟨j, e⟩ := x
    rw [ascending_cons] at hasc
    simp only [List.mem_cons, Prod.mk.injEq] at hm
    rcases hm with ⟨h1, _⟩ | hm
    · simp [upsert, h1]
    · have hlt : j < i := hasc.1 (i, d) hm
      have h1 : ¬ j = i := by omega
      have h2 : ¬ j > i := by omega
      simp [upsert, h1, h2, ih hasc.2 hm]

/-- Without a node of the index the loop of `llist_get_next_idx` runs to the
end. -/
theorem next_out_absent (i : Int) :
    ∀ (l : List (Int × Option α)), (∀ d, (i, d) ∉ l) → next_out i l = none := by
  intro l
  induction l with
  | nil => intro _; rfl
  | cons x r ih =>
    intro hab
    obtain ⟨j, d⟩ := x
    have hji : ¬ j = i := fun h => hab d (by simp [h])
    simp only [next_out, hji, if_false]
    exact ih (fun e he => hab e (List.mem_cons_of_mem _ he))

/-- With pairwise distinct indices the loop of `llist_get_next_idx` runs to
the end when the last node carries the index. -/
theorem next_out_last (i : Int) (d : Option α) :
    ∀ (l1 : List (Int × Option α)), ((l1 ++ [(i, d)]).map Prod.fst).Nodup →
      next_out i (l1 ++ [(i, d)]) = none := by
  intro l1
  induction l1 with
  | nil => intro _; simp [next_out]
  | cons x r ih =>
    intro hnd
    obtain ⟨k, c⟩ := x
    simp only [List.cons_append, List.map_cons, List.nodup_cons] at hnd
    have hki : ¬ k = i := by
      intro h
      apply hnd.1
      subst h
      simp
    simp only [List.cons_append, next_out, hki, if_false]
    exact ih hnd.2

/-- An index is carried by no node, by the last node, or by a node that has a
successor. -/
theorem index_cases (i : Int) (l : List (Int × Option α)) :
    (∀ d, (i, d) ∉ l) ∨ (∃ l1 d, l = l1 ++ [(i, d)]) ∨
      (∃ l1 d j e l2, l = l1 ++ (i, d) :: (j, e) :: l2) := by
  by_cases h : ∃ d, (i, d) ∈ l
  · obtain ⟨d, hd⟩ := h
    obtain ⟨s, t, hst⟩ := List.append_of_mem hd
    cases t with
    | nil => exact Or.inr (Or.inl ⟨s, d, hst⟩)
    | cons y t2 =>
      obtain ⟨j, e⟩ := y
      exact Or.inr (Or.inr ⟨s, d, j, e, t2, hst⟩)
  · left
    intro d hd
    exact h ⟨d, hd⟩

/-- With pairwise distinct indices the loop of `llist_get_next_idx` runs to
the end exactly when no node or the last node carries the index. -/
theorem next_out_none_iff (i : Int) (l : List (Int × Option α))
    (hnd : (l.map Prod.fst).Nodup) :
    next_out i l = none ↔ (∀ d, (i, d) ∉ l) ∨ (∃ l1 d, l = l1 ++ [(i, d)]) := by
  constructor
  · intro hn
    rcases index_cases i l with h | h | ⟨l1, d, j, e, l2, h⟩
    · exact Or.inl h
    · exact Or.inr h
    · subst h
      rw [next_out_succ i j d e l2 l1 hnd] at hn
      cases hn
  · intro h
    rcases h with h | ⟨l1, d, h⟩
    · exact next_out_absent i l h
    · subst h
      exact next_out_last i d l1 hnd

/-- With pairwise distinct indices the loop of `llist_get_next_idx` returns
`j` exactly when the node after the one that carries the index has index
`j`. -/
theorem next_out_some_iff (i j : Int) (l : List (Int × Option α))
    (hnd : (l.map Prod.fst).Nodup) :
    next_out i l = some j ↔ ∃ l1 d e l2, l = l1 ++ (i, d) :: (j, e) :: l2 := by
  constructor
  · intro hn
    rcases index_cases i l with h | ⟨l1, d, h⟩ | ⟨l1, d, k, e, l2, h⟩
    · rw [next_out_absent i l h] at hn; cases hn
    · subst h
      rw [next_out_last i d l1 hnd] at hn; cases hn
    · subst h
      rw [next_out_succ i k d e l2 l1 hnd] at hn
      cases hn
      exact ⟨l1, d, e, l2, rfl⟩
  · rintro ⟨l1, d, e, l2, h⟩
    subst h
    exact next_out_succ i j d e l2 l1 hnd

/-! ## A list that is too long to count -/

/-- The cells of `ramp n`. -/
theorem ramp_cell (n k : Nat) (hk : k < n) :
    (ramp n : world α).heap[k]? =
      some (some { index := Int.ofNat k, datap := none,
                   nextp := if k + 1 < n then some (k + 1) else none }) := by
  simp [ramp, List.getElem?_range hk]

/-- The cells of `ramp n` from address `k` on form a chain of `m` nodes when
`k + m = n`. -/
theorem ramp_chain (n : Nat) :
    ∀ (m k : Nat), k + m = n →
      is_chain (ramp n : world α).heap (if m = 0 then none else some k)
        ((List.range' k m).map (fun j => (j, Int.ofNat j, (none : Option α)))) := by
  intro m
  induction m with
  | zero => intro k _; simp [is_chain]
  | succ m ih =>
    intro k hk
    have hcell := ramp_cell (α := α) n k (by omega)
    have hrec := ih (k + 1) (by omega)
    simp only [List.range'_succ, List.map_cons]
    refine ⟨by simp, _, hcell, ?_⟩
    by_cases hm : m = 0
    · subst hm
      have : ¬ (k + 1 < n) := by omega
      simpa [this] using hrec
    · have : k + 1 < n := by omega
      simpa [this, hm] using hrec

/-- The list `ramp n` is well formed and has `n` nodes. -/
theorem ramp_contents (n : Nat) :
    ∃ l, contents (ramp n : world α) = some l ∧ l.length = n := by
  have hc := ramp_chain (α := α) n n 0 (by omega)
  have hf : (ramp n : world α).first = (if n = 0 then none else some 0) := rfl
  rw [← hf, ← llist_nodes_iff] at hc
  refine ⟨_, (contents_eq_some _ _).mpr ⟨_, hc, rfl⟩, ?_⟩
  simp

/-! ## The claims, continued -/

/-- C11, as the code has it: on a strictly ascending list whose lock no writer
holds, `llist_get_next_idx i` returns -1 exactly when no node carries `i`, or
the last node carries `i`, or the node after the one carrying `i` has the
index -1 itself. -/
theorem next_idx_minus_one_iff (w : world α) (l : List (Int × Option α)) (i : Int)
    (hl : contents w = some l) (hasc : ascending l)
    (hw : w.rwlock.writer_writing = false) :
    ∃ r w2, llist_get_next_idx i w = .ok (r, w2) ∧
      (r = -1 ↔ ((∀ d, (i, d) ∉ l) ∨ (∃ l1 d, l = l1 ++ [(i, d)]) ∨
        (∃ l1 d e l2, l = l1 ++ (i, d) :: (-1, e) :: l2))) := by
  obtain ⟨w2, hnext, _⟩ := next_idx_contents i w l hl hw
  have hnd := ascending_nodup l hasc
  refine ⟨_, w2, hnext, ?_⟩
  cases hno : next_out i l with
  | none =>
    simp only [Option.getD_none, true_iff]
    rcases (next_out_none_iff i l hnd).mp hno with h | h
    · exact Or.inl h
    · exact Or.inr (Or.inl h)
  | some j =>
    simp only [Option.getD_some]
    constructor
    · intro hj
      subst hj
      exact Or.inr (Or.inr ((next_out_some_iff i (-1) l hnd).mp hno))
    · intro h
      rcases h with h | h | h
      · rw [(next_out_none_iff i l hnd).mpr (Or.inl h)] at hno; cases hno
      · rw [(next_out_none_iff i l hnd).mpr (Or.inr h)] at hno; cases hno
      · rw [(next_out_some_iff i (-1) l hnd).mpr h] at hno
        cases hno
        rfl

/-- A concrete instance on the list 1:y, 2:z, 3:x, where every hypothesis holds. -/
theorem next_idx_minus_one_iff_witness :
    contents sample = some sample_contents ∧ ascending sample_contents ∧
    ∃ r w2, llist_get_next_idx 3 sample = .ok (r, w2) ∧
      (r = -1 ↔ ((∀ d, ((3 : Int), d) ∉ sample_contents) ∨
        (∃ l1 d, sample_contents = l1 ++ [(3, d)]) ∨
        (∃ l1 d e l2, sample_contents = l1 ++ (3, d) :: (-1, e) :: l2))) :=
  ⟨by decide, by decide,
    next_idx_minus_one_iff sample sample_contents 3 (by decide) (by decide) (by decide)⟩

/-- C11 fails as stated: on the strictly ascending list -2:a, -1:b the call
`llist_get_next_idx (-2)` returns -1, the index of the successor, although a
node carries -2 and that node is not the last. -/
theorem next_idx_minus_one_is_an_index :
    ∃ w2, contents below_zero = some [(-2, some "a"), (-1, some "b")] ∧
      ascending [((-2 : Int), some "a"), (-1, some "b")] ∧
      llist_get_next_idx (-2) below_zero = .ok (-1, w2) ∧
      ¬ ((∀ d, ((-2 : Int), d) ∉ [((-2 : Int), some "a"), (-1, some "b")]) ∨
          (∃ l1 d, [((-2 : Int), some "a"), (-1, some "b")] = l1 ++ [(-2, d)])) := by
  refine ⟨_, rfl, by decide, rfl, ?_⟩
  rintro (h | ⟨l1, d, h⟩)
  · exact h (some "a") (by simp)
  · have h2 := congrArg List.getLast? h
    simp at h2

/-- C12, as the code has it: on a well-formed list of at most `INT_MAX` nodes
with an idle lock, `llist_get_count` returns the number of nodes and leaves
heap and head as they were; on a strictly ascending list the count after
`llist_insert_data` of an absent index is one more, as long as that still fits
an `int`, and after `llist_insert_data` of a present index it is the same. -/
theorem count_is_length (w : world α) (l : List (Int × Option α))
    (hl : contents w = some l) (hfit : (l.length : Int) ≤ INT_MAX) (hidle : lock_idle w) :
    (∃ w2, llist_get_count w = .ok ((l.length : Int), w2) ∧
      w2.heap = w.heap ∧ w2.first = w.first) ∧
    (∀ (i : Int) (p : Option α), ascending l → (∀ d, (i, d) ∉ l) →
      (l.length : Int) < INT_MAX →
      ∃ w1 w3, llist_insert_data i p w = .ok (0, w1) ∧
        llist_get_count w1 = .ok ((l.length : Int) + 1, w3)) ∧
    (∀ (i : Int) (p d : Option α), ascending l → (i, d) ∈ l →
      ∃ w1 w3, llist_insert_data i p w = .ok (0, w1) ∧
        llist_get_count w1 = .ok ((l.length : Int), w3)) := by
  refine ⟨?_, ?_, ?_⟩
  · have hc := count_contents w l hl hidle.1
    rw [if_pos hfit] at hc
    exact ⟨_, hc, rfl, rfl⟩
  · intro i p _ hab hlt
    obtain ⟨w1, hins, hid, hc1⟩ := insert_contents i p w l hl hidle
    have hc := count_contents w1 _ hc1 hid.1
    rw [upsert_length_absent i p l hab] at hc
    have hfit2 : (((l.length + 1 : Nat)) : Int) ≤ INT_MAX := by push_cast; omega
    rw [if_pos hfit2] at hc
    have e : (((l.length + 1 : Nat)) : Int) = (l.length : Int) + 1 := by push_cast; rfl
    rw [e] at hc
    exact ⟨w1, _, hins, hc⟩
  · intro i p d hasc hmem
    obtain ⟨w1, hins, hid, hc1⟩ := insert_contents i p w l hl hidle
    have hc := count_contents w1 _ hc1 hid.1
    rw [upsert_length_present i p d l hasc hmem, if_pos hfit] at hc
    exact ⟨w1, _, hins, hc⟩

/-- A concrete instance on the list 1:y, 2:z, 3:x, where every hypothesis holds. -/
theorem count_is_length_witness :
    contents sample = some sample_contents ∧
    ((sample_contents.length : Nat) : Int) ≤ INT_MAX ∧ lock_idle sample ∧
    ((∃ w2, llist_get_count sample = .ok ((sample_contents.length : Int), w2) ∧
      w2.heap = sample.heap ∧ w2.first = sample.first) ∧
    (∀ (i : Int) (p : Option String), ascending sample_contents →
      (∀ d, (i, d) ∉ sample_contents) → (sample_contents.length : Int) < INT_MAX →
      ∃ w1 w3, llist_insert_data i p sample = .ok (0, w1) ∧
        llist_get_count w1 = .ok ((sample_contents.length : Int) + 1, w3)) ∧
    (∀ (i : Int) (p d : Option String), ascending sample_contents →
      (i, d) ∈ sample_contents →
      ∃ w1 w3, llist_insert_data i p sample = .ok (0, w1) ∧
        llist_get_count w1 = .ok ((sample_contents.length : Int), w3))) :=
  ⟨by decide, by decide, by decide,
    count_is_length sample sample_contents (by decide) (by decide) (by decide)⟩

/-- C12 fails as stated: the well-formed list `ramp 2147483648` has 2147483648
nodes, one more than `INT_MAX`, and `llist_get_count` does not return their
number: its `int` counter overflows. -/
theorem count_overflows_int :
    ∃ l, contents (ramp 2147483648 : world String) = some l ∧ l.length = 2147483648 ∧
      llist_get_count (ramp 2147483648 : world String) = .error .fault := by
  obtain ⟨l, hl, hlen⟩ := ramp_contents (α := String) 2147483648
  refine ⟨l, hl, hlen, ?_⟩
  have hc := count_contents (ramp 2147483648 : world String) l hl rfl
  have hno : ¬ ((l.length : Int) ≤ INT_MAX) := by
    rw [hlen]; unfold INT_MAX; omega
  rw [if_neg hno] at hc
  exact hc

/-- C13: on a strictly ascending list with an idle lock, `llist_change_data i p`
returns 0 exactly when some node carries `i` and -1 exactly when none does, and
in the second case heap, head and contents are as they were. -/
theorem change_status (w : world α) (l : List (Int × Option α)) (i : Int) (p : Option α)
    (hl : contents w = some l) (hasc : ascending l) (hidle : lock_idle w) :
    ∃ r w2, llist_change_data i p w = .ok (r, w2) ∧
      (r = 0 ↔ ∃ d, (i, d) ∈ l) ∧ (r = -1 ↔ ¬ ∃ d, (i, d) ∈ l) ∧
      ((¬ ∃ d, (i, d) ∈ l) →
        w2.heap = w.heap ∧ w2.first = w.first ∧ contents w2 = some l) := by
  obtain ⟨out, w2, hrem, hchg⟩ := change_as_remove i p w l hl hidle
  obtain ⟨w3, hrem3, _, hsame⟩ := remove_contents i w l hl hidle
  rw [hrem] at hrem3
  have hw : w2 = w3 := by
    injection hrem3 with h
    exact (Prod.mk.inj h).2
  subst hw
  refine ⟨_, w2, hchg, ?_, ?_, ?_⟩
  · constructor
    · intro h0
      by_cases hh : scan_hit i l = true
      · exact scan_hit_mem i l hh
      · simp [hh] at h0
    · rintro ⟨d, hd⟩
      simp [scan_hit_of_mem i d l hasc hd]
  · constructor
    · intro h1 ⟨d, hd⟩
      simp [scan_hit_of_mem i d l hasc hd] at h1
    · intro hno
      have hh : ¬ scan_hit i l = true := fun hh => hno (scan_hit_mem i l hh)
      simp [hh]
  · intro hno
    obtain ⟨hh, hf, _⟩ := hsame (fun d hd => hno ⟨d, hd⟩)
    exact ⟨hh, hf, by rw [contents_congr w w2 hh hf, hl]⟩

/-- A concrete instance on the list 1:y, 2:z, 3:x, where every hypothesis holds. -/
theorem change_status_witness :
    contents sample = some sample_contents ∧ ascending sample_contents ∧ lock_idle sample ∧
    ∃ r w2, llist_change_data 7 (some "q") sample = .ok (r, w2) ∧
      (r = 0 ↔ ∃ d, ((7 : Int), d) ∈ sample_contents) ∧
      (r = -1 ↔ ¬ ∃ d, ((7 : Int), d) ∈ sample_contents) ∧
      ((¬ ∃ d, ((7 : Int), d) ∈ sample_contents) →
        w2.heap = sample.heap ∧ w2.first = sample.first ∧
        contents w2 = some sample_contents) :=
  ⟨by decide, by decide, by decide,
    change_status sample sample_contents 7 (some "q") (by decide) (by decide) (by decide)⟩

/-- C14: on the list 1:y, 2:z, 3:x the call `llist_change_data 2 "q"` returns 0,
but the node of index 2 is unlinked and freed instead of keeping its place with
the new payload: the contents are 1:y, 3:x and `llist_find_data 2` yields
`NULL`. -/
theorem change_drops_the_node :
    ∃ w1 w2 : world String,
      llist_change_data 2 (some "q") sample = .ok (0, w1) ∧
      contents w1 = some [(1, some "y"), (3, some "x")] ∧
      w1.heap[2]? = some none ∧
      llist_find_data 2 w1 = .ok ((0, none), w2) :=
  ⟨_, _, rfl, rfl, rfl, rfl⟩

/-- C15: on every well-formed list with an idle lock, whatever the arguments,
`llist_insert_data`, `llist_remove_data` and `llist_find_data` return with the
lock idle again, and the call has added to the history of the lock exactly one
acquire and one release in its mode: exclusive for insert and remove, shared
for find. -/
theorem lock_released_on_every_path (w : world α) (l : List (Int × Option α))
    (hl : contents w = some l) (hidle : lock_idle w) :
    (∀ (i : Int) (p : Option α), ∃ w2, llist_insert_data i p w = .ok (0, w2) ∧
      lock_idle w2 ∧ w2.rwlock.history = w.rwlock.history ++ [.wlock, .wunlock]) ∧
    (∀ (i : Int), ∃ out w2, llist_remove_data i w = .ok ((0, out), w2) ∧
      lock_idle w2 ∧ w2.rwlock.history = w.rwlock.history ++ [.wlock, .wunlock]) ∧
    (∀ (i : Int), ∃ out w2, llist_find_data i w = .ok ((0, out), w2) ∧
      lock_idle w2 ∧ w2.rwlock.history = w.rwlock.history ++ [.rlock, .runlock]) := by
  refine ⟨?_, ?_, ?_⟩
  · intro i p
    obtain ⟨w2, hins, _⟩ := insert_contents i p w l hl hidle
    obtain ⟨_, hlk⟩ := insert_lock i p w w2 0 hins
    exact ⟨w2, hins, ⟨by rw [hlk], by rw [hlk]; exact hidle.2⟩, by rw [hlk]⟩
  · intro i
    obtain ⟨w2, hrem, _⟩ := remove_contents i w l hl hidle
    obtain ⟨_, hlk⟩ := remove_lock i w w2 _ hrem
    exact ⟨_, w2, hrem, ⟨by rw [hlk], by rw [hlk]; exact hidle.2⟩, by rw [hlk]⟩
  · intro i
    obtain ⟨w2, hfind, _⟩ := find_contents i w l hl hidle.1
    obtain ⟨_, hlk⟩ := find_lock i w w2 _ hfind
    exact ⟨_, w2, hfind, ⟨by rw [hlk]; exact hidle.1, by rw [hlk]; exact hidle.2⟩, by rw [hlk]⟩

/-- A concrete instance on the list 1:y, 2:z, 3:x, where every hypothesis holds. -/
theorem lock_released_on_every_path_witness :
    contents sample = some sample_contents ∧ lock_idle sample ∧
    ((∀ (i : Int) (p : Option String), ∃ w2, llist_insert_data i p sample = .ok (0, w2) ∧
      lock_idle w2 ∧ w2.rwlock.history = sample.rwlock.history ++ [.wlock, .wunlock]) ∧
    (∀ (i : Int), ∃ out w2, llist_remove_data i sample = .ok ((0, out), w2) ∧
      lock_idle w2 ∧ w2.rwlock.history = sample.rwlock.history ++ [.wlock, .wunlock]) ∧
    (∀ (i : Int), ∃ out w2, llist_find_data i sample = .ok ((0, out), w2) ∧
      lock_idle w2 ∧ w2.rwlock.history = sample.rwlock.history ++ [.rlock, .runlock])) :=
  ⟨by decide, by decide,
    lock_released_on_every_path sample sample_contents (by decide) (by decide)⟩

/-- C16: on a strictly ascending list with an idle lock, `llist_insert_data i p`
returns 0 and leaves the reference sorted upsert of the contents: with a node
of index `i`, the old contents with the payload of that node changed to `p`;
without one, the nodes below `i`, then `(i, p)`, then the nodes above `i`. -/
theorem insert_is_reference_upsert (w : world α) (l : List (Int × Option α)) (i : Int)
    (p : Option α) (hl : contents w = some l) (hasc : ascending l) (hidle : lock_idle w) :
    ∃ w2, llist_insert_data i p w = .ok (0, w2) ∧
      contents w2 = some (reference_upsert i p l) := by
  obtain ⟨w2, hins, _, hc2⟩ := insert_contents i p w l hl hidle
  rw [upsert_eq_reference i p l hasc] at hc2
  exact ⟨w2, hins, hc2⟩

/-- A concrete instance on the list 1:y, 2:z, 3:x, where every hypothesis holds. -/
theorem insert_is_reference_upsert_witness :
    contents sample = some sample_contents ∧ ascending sample_contents ∧ lock_idle sample ∧
    ∃ w2, llist_insert_data 0 (some "a") sample = .ok (0, w2) ∧
      contents w2 = some (reference_upsert 0 (some "a") sample_contents) :=
  ⟨by decide, by decide, by decide,
    insert_is_reference_upsert sample sample_contents 0 (some "a") (by decide) (by decide)
      (by decide)⟩

/-- C17: on the list 1:y, 2:z, 3:x the call `llist_remove_data 1` yields "y"
and frees the first node, but the head is not advanced to the former second
node at address 2: it still holds the address 1 of the freed node, so the
contents are not 2:z, 3:x. -/
theorem remove_first_keeps_head :
    ∃ w2 : world String,
      sample.first = some 1 ∧ sample.heap[1]? =
        some (some { index := 1, datap := some "y", nextp := some 2 }) ∧
      llist_remove_data 1 sample = .ok ((0, some "y"), w2) ∧
      w2.first = some 1 ∧ w2.heap[1]? = some none ∧
      contents w2 = none :=
  ⟨_, rfl, rfl, rfl, rfl, rfl, rfl⟩

/-- C18: on a strictly ascending list with an idle lock, for every node
`(i, d)` that is not the first, `llist_remove_data i` returns 0 with `d` in its
output, keeps the head, and leaves exactly the old contents without that node,
in the old order. -/
theorem remove_behind_first (w : world α) (l1 l2 : List (Int × Option α)) (i : Int)
    (d : Option α) (hl : contents w = some (l1 ++ (i, d) :: l2)) (hne : l1 ≠ [])
    (hasc : ascending (l1 ++ (i, d) :: l2)) (hidle : lock_idle w) :
    ∃ w2, llist_remove_data i w = .ok ((0, d), w2) ∧
      contents w2 = some (l1 ++ l2) ∧ w2.first = w.first := by
  obtain ⟨h1, _, _⟩ := ascending_split l1 l2 (i, d) hasc
  have hhead : ∀ x ∈ (l1 ++ (i, d) :: l2).head?, x.1 ≠ i := by
    intro x hx
    cases l1 with
    | nil => exact absurd rfl hne
    | cons y r =>
      simp at hx
      subst hx
      have := h1 y (by simp)
      simp at this
      omega
  obtain ⟨w2, hrem, _, hfst, hc2⟩ := remove_behind_head i w _ hl hidle hhead
  rw [scan_out_mem i d _ hasc (by simp), scan_erase_split i d l2 l1 hasc] at *
  exact ⟨w2, hrem, hc2, hfst⟩

/-- A concrete instance on the list 1:y, 2:z, 3:x, where every hypothesis holds. -/
theorem remove_behind_first_witness :
    contents sample = some ([(1, some "y")] ++ (2, some "z") :: [(3, some "x")]) ∧
    [((1 : Int), some "y")] ≠ [] ∧
    ascending ([((1 : Int), some "y")] ++ (2, some "z") :: [(3, some "x")]) ∧
    lock_idle sample ∧
    ∃ w2, llist_remove_data 2 sample = .ok ((0, some "z"), w2) ∧
      contents w2 = some ([(1, some "y")] ++ [(3, some "x")]) ∧ w2.first = sample.first :=
  ⟨by decide, by decide, by decide, by decide,
    remove_behind_first sample [(1, some "y")] [(3, some "x")] 2 (some "z") (by decide)
      (by decide) (by decide) (by decide)⟩

/-- The loop of `llist_remove_data` writes no index and no payload: every cell
that is live when the loop is left was live before, with the same index and
the same payload. -/
theorem remove_loop_keeps_payloads (i : Int) :
    ∀ (f : Nat) (cur prev : Option Nat) (out : Option α) (w : world α) (o2 : Option α)
      (w2 : world α),
      remove_loop i f cur prev out w = .ok (o2, w2) →
      ∀ (a : Nat) (n : llist_node_t α), w2.heap[a]? = some (some n) →
        ∃ n0, w.heap[a]? = some (some n0) ∧ n.index = n0.index ∧ n.datap = n0.datap := by
  intro f
  induction f with
  | zero =>
    intro cur prev out w o2 w2 h a n ha
    cases cur with
    | none =>
      simp [remove_loop] at h
      rw [← h.2] at ha
      exact ⟨n, ha, rfl, rfl⟩
    | some c => simp [remove_loop] at h
  | succ f ih =>
    intro cur prev out w o2 w2 h a n ha
    cases cur with
    | none =>
      simp [remove_loop] at h
      rw [← h.2] at ha
      exact ⟨n, ha, rfl, rfl⟩
    | some c =>
      simp only [remove_loop] at h
      split at h
      · cases h
      · rename_i nc hnc
        split at h
        · split at h
          · cases h
          · rename_i q
            split at h
            · cases h
            · rename_i pn hpn
              simp at h
              rw [← h.2] at ha
              have hpq := (deref_eq_ok _ _ _).mp hpn
              have hql := get_lt _ _ _ hpq
              by_cases hac : c = a
              · subst hac
                by_cases hcl : c < w.heap.length
                · rw [free_get_self _ _ (by simpa [store] using hcl)] at ha
                  cases ha
                · have hlen : (free_node (store w.heap q
                      { pn with nextp := nc.nextp }) c).length ≤ c := by
                    simp [free_node, store]; omega
                  rw [List.getElem?_eq_none hlen] at ha
                  cases ha
              · rw [free_get_ne _ _ _ hac] at ha
                by_cases haq : q = a
                · subst haq
                  rw [store_get_self _ _ _ hql] at ha
                  cases ha
                  exact ⟨pn, hpq, rfl, rfl⟩
                · rw [store_get_ne _ _ _ _ haq] at ha
                  exact ⟨n, ha, rfl, rfl⟩
        · split at h
          · simp at h
            rw [← h.2] at ha
            exact ⟨n, ha, rfl, rfl⟩
          · exact ih _ _ _ _ _ _ h a n ha

/-- A call of `llist_remove_data` that returns has written no index and no
payload: every cell that is live afterwards was live before, with the same
index and the same payload. -/
theorem remove_keeps_payloads (i : Int) (w w2 : world α) (r : Int × Option α)
    (h : llist_remove_data i w = .ok (r, w2)) :
    ∀ (a : Nat) (n : llist_node_t α), w2.heap[a]? = some (some n) →
      ∃ n0, w.heap[a]? = some (some n0) ∧ n.index = n0.index ∧ n.datap = n0.datap := by
  simp only [llist_remove_data, pthread_rdwr_wlock_np] at h
  split at h
  · cases h
  · rename_i w1 hw1
    split at hw1
    · cases hw1
    · cases hw1
      split at h
      · cases h
      · rename_i o2 wl hloop
        cases h
        intro a n ha
        exact remove_loop_keeps_payloads i _ _ _ _ _ _ _ hloop a n ha

/-- On a strictly ascending list with an idle lock, for a node `(i, d)` that is
not the first, `llist_change_data i p` returns 0 with the lock idle again,
leaves the old contents without that node and every live cell with its old
index and payload; `llist_find_data i` then yields `NULL`, and when the old
number of nodes fits an `int`, `llist_get_count` returns that number before
the call and one less after it. -/
theorem change_unlinks (w : world α) (l1 l2 : List (Int × Option α)) (i : Int)
    (d p : Option α) (hl : contents w = some (l1 ++ (i, d) :: l2)) (hne : l1 ≠ [])
    (hasc : ascending (l1 ++ (i, d) :: l2)) (hidle : lock_idle w) :
    ∃ w2, llist_change_data i p w = .ok (0, w2) ∧ lock_idle w2 ∧
      contents w2 = some (l1 ++ l2) ∧
      (∀ (a : Nat) (n : llist_node_t α), w2.heap[a]? = some (some n) →
        ∃ n0, w.heap[a]? = some (some n0) ∧ n.index = n0.index ∧ n.datap = n0.datap) ∧
      (∃ w3, llist_find_data i w2 = .ok ((0, none), w3)) ∧
      ((((l1 ++ (i, d) :: l2).length : Nat) : Int) ≤ INT_MAX →
        ∃ w0 w4, llist_get_count w = .ok ((((l1 ++ (i, d) :: l2).length : Nat) : Int), w0) ∧
          llist_get_count w2 = .ok ((((l1 ++ (i, d) :: l2).length : Nat) : Int) - 1, w4)) := by
  obtain ⟨h1, _, _⟩ := ascending_split l1 l2 (i, d) hasc
  have hhead : ∀ x ∈ (l1 ++ (i, d) :: l2).head?, x.1 ≠ i := by
    intro x hx
    cases l1 with
    | nil => exact absurd rfl hne
    | cons y r =>
      simp at hx
      subst hx
      have := h1 y (by simp)
      simp at this
      omega
  obtain ⟨w2, hrem, hid2, _, hc2⟩ := remove_behind_head i w _ hl hidle hhead
  obtain ⟨out, w3, hrem3, hchg⟩ := change_as_remove i p w _ hl hidle
  have hkeep := remove_keeps_payloads i w w2 _ hrem
  rw [hrem] at hrem3
  have hw : w2 = w3 := by
    injection hrem3 with h
    exact (Prod.mk.inj h).2
  subst hw
  rw [scan_erase_split i d l2 l1 hasc] at hc2
  rw [scan_hit_of_mem i d _ hasc (by simp)] at hchg
  refine ⟨w2, by simpa using hchg, hid2, hc2, hkeep, ?_, ?_⟩
  · obtain ⟨w4, hfind, _⟩ := find_contents i w2 _ hc2 hid2.1
    rw [scan_out_absent i _ (ascending_absent_rest l1 l2 i d hasc)] at hfind
    exact ⟨w4, hfind⟩
  · intro hfit
    have hbefore := count_contents w _ hl hidle.1
    have hafter := count_contents w2 _ hc2 hid2.1
    rw [if_pos hfit] at hbefore
    have hlen : (((l1 ++ (i, d) :: l2).length : Nat) : Int)
        = (((l1 ++ l2).length : Nat) : Int) + 1 := by
      simp only [List.length_append, List.length_cons]; push_cast; omega
    have hfit2 : (((l1 ++ l2).length : Nat) : Int) ≤ INT_MAX := by omega
    rw [if_pos hfit2] at hafter
    have e : (((l1 ++ l2).length : Nat) : Int)
        = (((l1 ++ (i, d) :: l2).length : Nat) : Int) - 1 := by omega
    rw [e] at hafter
    exact ⟨_, _, hbefore, hafter⟩

/-- The contents of `ramp n`. -/
theorem ramp_contents_eq (n : Nat) :
    contents (ramp n : world α) =
      some ((List.range' 0 n).map (fun j => (Int.ofNat j, (none : Option α)))) := by
  have hc := ramp_chain (α := α) n n 0 (by omega)
  have hf : (ramp n : world α).first = (if n = 0 then none else some 0) := rfl
  rw [← hf, ← llist_nodes_iff] at hc
  rw [contents_eq_some]
  exact ⟨_, hc, by rw [List.map_map]; rfl⟩

/-- The indices of `ramp n` ascend. -/
theorem ramp_ascending :
    ∀ (m k : Nat),
      ascending ((List.range' k m).map (fun j => (Int.ofNat j, (none : Option α)))) := by
  intro m
  induction m with
  | zero => intro k; simp [ascending]
  | succ m ih =>
    intro k
    rw [List.range'_succ, List.map_cons, ascending_cons]
    refine ⟨?_, ih (k + 1)⟩
    intro x hx
    obtain ⟨j, hj, rfl⟩ := List.mem_map.mp hx
    have := (List.mem_range'_1.mp hj).1
    show Int.ofNat k < Int.ofNat j
    exact Int.ofNat_lt.mpr (by omega)

/-- On the list `ramp (n + 2)` with `n + 2 = INT_MAX + 1` nodes the node of
index 1 is not the first; `llist_change_data 1 p` returns 0, `llist_get_count`
faults before the call and returns `INT_MAX` after it. -/
theorem ramp_change_count (n : Nat) (p : Option α) (hn : (n : Int) + 2 = INT_MAX + 1) :
    ∃ (l2 : List (Int × Option α)) (w2 w4 : world α),
      contents (ramp (n + 2) : world α) = some ([(0, none)] ++ (1, none) :: l2) ∧
      ascending ([((0 : Int), (none : Option α))] ++ (1, none) :: l2) ∧
      llist_change_data 1 p (ramp (n + 2)) = .ok (0, w2) ∧
      llist_get_count (ramp (n + 2) : world α) = .error .fault ∧
      llist_get_count w2 = .ok (INT_MAX, w4) := by
  have hsplit : List.range' 0 (n + 2) = 0 :: 1 :: List.range' 2 n := by
    rw [List.range'_succ, List.range'_succ]
  have hl := ramp_contents_eq (α := α) (n + 2)
  have hasc := ramp_ascending (α := α) (n + 2) 0
  rw [hsplit] at hl hasc
  simp only [List.map_cons] at hl hasc
  have hidle : lock_idle (ramp (n + 2) : world α) := ⟨rfl, rfl⟩
  obtain ⟨w2, hchg, hid2, hc2, _, _, _⟩ :=
    change_unlinks (ramp (n + 2) : world α) [(Int.ofNat 0, none)]
      ((List.range' 2 n).map (fun j => (Int.ofNat j, (none : Option α)))) (Int.ofNat 1) none p
      hl (by simp) hasc hidle
  have hbefore := count_contents (ramp (n + 2) : world α) _ hl rfl
  have hafter := count_contents w2 _ hc2 hid2.1
  have hlen1 : ((((Int.ofNat 0, (none : Option α)) :: (Int.ofNat 1, none) ::
      (List.range' 2 n).map (fun j => (Int.ofNat j, (none : Option α)))).length : Nat) : Int)
      = (n : Int) + 2 := by
    rw [List.length_cons, List.length_cons, List.length_map, List.length_range']
    push_cast; omega
  have hlen2 : (((([(Int.ofNat 0, (none : Option α))] ++
      (List.range' 2 n).map (fun j => (Int.ofNat j, (none : Option α)))).length : Nat)) : Int)
      = INT_MAX := by
    rw [List.length_append, List.length_map, List.length_range']
    simp only [List.length_singleton]
    push_cast; omega
  rw [hlen1, if_neg (by omega)] at hbefore
  rw [hlen2, if_pos (le_refl _)] at hafter
  exact ⟨_, w2, _, hl, hasc, hchg, hbefore, hafter⟩

/-- C19, as the code has it: on a strictly ascending list with an idle lock,
for every node `(i, d)` that is not the first and every payload `p`,
`llist_change_data i p` returns 0 and leaves the old contents without that
node.  The payload `p` is written only to the node that is freed: every cell
that is live afterwards holds the index and payload it held before.  A
following `llist_find_data i` yields `NULL`, and on a list of at most
`INT_MAX` nodes `llist_get_count` returns the number of nodes before the call
and one less after it. -/
theorem change_behind_first (w : world α) (l1 l2 : List (Int × Option α)) (i : Int)
    (d p : Option α) (hl : contents w = some (l1 ++ (i, d) :: l2)) (hne : l1 ≠ [])
    (hasc : ascending (l1 ++ (i, d) :: l2)) (hidle : lock_idle w) :
    ∃ w2, llist_change_data i p w = .ok (0, w2) ∧ lock_idle w2 ∧
      contents w2 = some (l1 ++ l2) ∧
      (∀ (a : Nat) (n : llist_node_t α), w2.heap[a]? = some (some n) →
        ∃ n0, w.heap[a]? = some (some n0) ∧ n.index = n0.index ∧ n.datap = n0.datap) ∧
      (∃ w3, llist_find_data i w2 = .ok ((0, none), w3)) ∧
      ((((l1 ++ (i, d) :: l2).length : Nat) : Int) ≤ INT_MAX →
        ∃ w0 w4, llist_get_count w = .ok ((((l1 ++ (i, d) :: l2).length : Nat) : Int), w0) ∧
          llist_get_count w2 = .ok ((((l1 ++ (i, d) :: l2).length : Nat) : Int) - 1, w4)) :=
  change_unlinks w l1 l2 i d p hl hne hasc hidle

/-- A concrete instance on the list 1:y, 2:z, 3:x, where every hypothesis
holds, that of the count included: the count is 3 before the call and 2 after
it. -/
theorem change_behind_first_witness :
    contents sample = some ([(1, some "y")] ++ (2, some "z") :: [(3, some "x")]) ∧
    [((1 : Int), some "y")] ≠ [] ∧
    ascending ([((1 : Int), some "y")] ++ (2, some "z") :: [(3, some "x")]) ∧
    lock_idle sample ∧
    ∃ w2, llist_change_data 2 (some "q") sample = .ok (0, w2) ∧ lock_idle w2 ∧
      contents w2 = some ([(1, some "y")] ++ [(3, some "x")]) ∧
      (∀ (a : Nat) (n : llist_node_t String), w2.heap[a]? = some (some n) →
        ∃ n0, sample.heap[a]? = some (some n0) ∧ n.index = n0.index ∧ n.datap = n0.datap) ∧
      (∃ w3, llist_find_data 2 w2 = .ok ((0, none), w3)) ∧
      (∃ w0 w4, llist_get_count sample = .ok (3, w0) ∧ llist_get_count w2 = .ok (2, w4)) :=
  ⟨by decide, by decide, by decide, by decide,
    (change_behind_first sample [(1, some "y")] [(3, some "x")] 2 (some "z") (some "q")
      (by decide) (by decide) (by decide) (by decide)).imp
      (fun _ h => ⟨h.1, h.2.1, h.2.2.1, h.2.2.2.1, h.2.2.2.2.1, h.2.2.2.2.2 (by decide)⟩)⟩

/-- C19 fails as stated, in two ways.  On the list 1:y, 2:z, 3:x the call
`llist_change_data 2 "y"` returns 0 and leaves 1:y, 3:x: the payload "y" of
the call is stored in a node that remains reachable, the first one.  And on
the strictly ascending list `ramp 2147483648`, whose node of index 1 is not
the first, `llist_change_data 1 "q"` returns 0 and `llist_get_count` then
returns 2147483647, which is not one less than before: before the call
`llist_get_count` overflows its `int` counter and returns nothing. -/
theorem change_payload_elsewhere :
    (∃ w2 : world String,
      contents sample = some ([(1, some "y")] ++ (2, some "z") :: [(3, some "x")]) ∧
      ascending ([((1 : Int), some "y")] ++ (2, some "z") :: [(3, some "x")]) ∧
      llist_change_data 2 (some "y") sample = .ok (0, w2) ∧
      contents w2 = some [(1, some "y"), (3, some "x")] ∧
      w2.first = some 1 ∧
      w2.heap[1]? = some (some { index := 1, datap := some "y", nextp := some 0 })) ∧
    (∃ (l2 : List (Int × Option String)) (w2 w4 : world String),
      contents (ramp 2147483648 : world String) = some ([(0, none)] ++ (1, none) :: l2) ∧
      ascending ([((0 : Int), (none : Option String))] ++ (1, none) :: l2) ∧
      llist_change_data 1 (some "q") (ramp 2147483648) = .ok (0, w2) ∧
      llist_get_count (ramp 2147483648 : world String) = .error .fault ∧
      llist_get_count w2 = .ok (2147483647, w4)) :=
  ⟨⟨_, by decide, by decide, rfl, rfl, rfl, rfl⟩,
    ramp_change_count 2147483646 (some "q") (by decide)⟩

/-- C20, as the code has it: on a list with pairwise distinct indices and an
idle lock, `llist_get_next_idx i` returns with the lock idle again, after one
shared acquire and one release, exactly when no node or the last node carries
`i`; when a node that has a successor carries `i`, it returns after the shared
acquire without any release, one reader still holding the lock. -/
theorem next_idx_lock (w : world α) (l : List (Int × Option α)) (i : Int)
    (hl : contents w = some l) (hnd : (l.map Prod.fst).Nodup) (hidle : lock_idle w) :
    ∃ r w2, llist_get_next_idx i w = .ok (r, w2) ∧
      (lock_idle w2 ↔ ((∀ d, (i, d) ∉ l) ∨ (∃ l1 d, l = l1 ++ [(i, d)]))) ∧
      (lock_idle w2 → w2.rwlock.history = w.rwlock.history ++ [.rlock, .runlock]) ∧
      ((∃ l1 d j e l2, l = l1 ++ (i, d) :: (j, e) :: l2) →
        w2.rwlock.readers_reading = 1 ∧ w2.rwlock.writer_writing = false ∧
        w2.rwlock.history = w.rwlock.history ++ [.rlock]) := by
  obtain ⟨l0, hl0, hmap⟩ := (contents_eq_some w l).mp hl
  rw [llist_nodes_iff] at hl0
  have hlen := is_chain_length_le _ _ _ hl0
  have hloop := next_idx_loop_chain i w.heap l0 (w.heap.length + 1) w.first w.first hl0 (by omega)
  rw [hmap] at hloop
  obtain ⟨hwr, hrd⟩ := hidle
  cases hno : next_out i l with
  | none =>
    rw [hno] at hloop
    refine ⟨-1, pthread_rdwr_runlock_np { w with rwlock :=
        { w.rwlock with readers_reading := w.rwlock.readers_reading + 1,
                        history := w.rwlock.history ++ [.rlock] } },
      by simp only [llist_get_next_idx, rlock_free w hwr, hloop], ?_, ?_, ?_⟩
    · constructor
      · intro _
        exact (next_out_none_iff i l hnd).mp hno
      · intro _
        exact ⟨hwr, by simp [pthread_rdwr_runlock_np]; omega⟩
    · intro _
      simp [pthread_rdwr_runlock_np]
    · rintro ⟨l1, d, j, e, l2, h⟩
      subst h
      rw [next_out_succ i j d e l2 l1 hnd] at hno
      cases hno
  | some j =>
    rw [hno] at hloop
    refine ⟨j, { w with rwlock :=
        { w.rwlock with readers_reading := w.rwlock.readers_reading + 1,
                        history := w.rwlock.history ++ [.rlock] } },
      by simp only [llist_get_next_idx, rlock_free w hwr, hloop], ?_, ?_, ?_⟩
    · constructor
      · intro hid
        have := hid.2
        simp at this
      · intro h
        rw [(next_out_none_iff i l hnd).mpr h] at hno
        cases hno
    · intro hid
      have := hid.2
      simp at this
    · intro _
      exact ⟨by simp [hrd], hwr, rfl⟩

/-- A concrete instance on the list 1:y, 2:z, 3:x, where every hypothesis holds. -/
theorem next_idx_lock_witness :
    contents sample = some sample_contents ∧ (sample_contents.map Prod.fst).Nodup ∧
    lock_idle sample ∧
    ∃ r w2, llist_get_next_idx 1 sample = .ok (r, w2) ∧
      (lock_idle w2 ↔ ((∀ d, ((1 : Int), d) ∉ sample_contents) ∨
        (∃ l1 d, sample_contents = l1 ++ [(1, d)]))) ∧
      (lock_idle w2 → w2.rwlock.history = sample.rwlock.history ++ [.rlock, .runlock]) ∧
      ((∃ l1 d j e l2, sample_contents = l1 ++ (1, d) :: (j, e) :: l2) →
        w2.rwlock.readers_reading = 1 ∧ w2.rwlock.writer_writing = false ∧
        w2.rwlock.history = sample.rwlock.history ++ [.rlock]) :=
  ⟨by decide, by decide, by decide,
    next_idx_lock sample sample_contents 1 (by decide) (by decide) (by decide)⟩

/-- C20 fails as stated: on the list 1:y, 2:z, 3:x the index 3 is found, in
the last node, and yet `llist_get_next_idx 3` runs on to the end of the loop,
releases the shared lock and returns -1 with the lock idle. -/
theorem next_idx_last_node_releases :
    ∃ w2 : world String,
      contents sample = some sample_contents ∧
      (sample_contents.map Prod.fst).Nodup ∧
      ((3 : Int), some "x") ∈ sample_contents ∧
      llist_get_next_idx 3 sample = .ok (-1, w2) ∧
      lock_idle w2 ∧ w2.rwlock.history = [.rlock, .runlock] :=
  ⟨_, rfl, by decide, by decide, rfl, by decide, rfl⟩

end Llist
